import Mathlib

/-!
# Verification of the commit-sampling / import-extraction engine

Shallow embedding of the Python sources `extractor_monthly.py`,
`extractor_trilingual.py` and `gh_trilingual_combined.py`.

Regular expressions used by the import extractors are embedded via a small
backtracking matcher (`RE`, `reM`, `findIter`) that reproduces the relevant
semantics of Python's `re` module: leftmost match, alternation priority,
greedy/lazy repetition with backtracking, capture groups, and the MULTILINE
meaning of `^` and `$`.  Python `set`s of strings are represented by lists of
the discovered elements; set content corresponds to list membership, and where
the source sorts a set (`sorted(mods)`) we sort the deduplicated list.
-/

namespace FutureOfIT

/-- Regular-expression syntax tree (enough for the patterns in the sources). -/
inductive RE where
  | eps
  | ch (c : Char)
  | cls (p : Char → Bool)
  | cat (a b : RE)
  | alt (a b : RE)
  | star (r : RE) (lz : Bool)
  | grp (n : Nat) (r : RE)
  | bol
  | eol

/-- Captured groups: group number paired with the captured characters. -/
abbrev Caps := List (Nat × List Char)

/-- Result of a match attempt: captures, remaining input, previous character. -/
abbrev MRes := Option (Caps × List Char × Option Char)

/-- Backtracking priority: the first alternative's result if it matched,
otherwise the second (lazily). -/
def firstSome (o : MRes) (b : Unit → MRes) : MRes :=
  match o with
  | some res => some res
  | none => b ()

/-- CPS backtracking matcher.  `prev` is the character just before the current
position (`none` at the start of the whole input); it is what MULTILINE `^`
inspects.  `fuel` bounds the recursion depth (structural, so that the matcher
reduces in the kernel); `reTry` supplies fuel ample for the fixed patterns. -/
def reM : Nat → RE → List Char → Option Char → Caps →
    (List Char → Option Char → Caps → MRes) → MRes
  | 0, _, _, _, _, _ => none
  | fuel + 1, r, s, prev, caps, k =>
    match r with
    | .eps => k s prev caps
    | .ch c =>
      match s with
      | [] => none
      | c' :: s' => if c' = c then k s' (some c') caps else none
    | .cls p =>
      match s with
      | [] => none
      | c' :: s' => if p c' then k s' (some c') caps else none
    | .cat a b => reM fuel a s prev caps (fun s' p' caps' => reM fuel b s' p' caps' k)
    | .alt a b =>
      firstSome (reM fuel a s prev caps k) (fun _ => reM fuel b s prev caps k)
    | .grp n a =>
      reM fuel a s prev caps (fun s' p' caps' =>
        k s' p' ((n, s.take (s.length - s'.length)) :: caps'))
    | .bol =>
      match prev with
      | none => k s prev caps
      | some c => if c = '\n' then k s prev caps else none
    | .eol =>
      match s with
      | [] => k s prev caps
      | c :: _ => if c = '\n' then k s prev caps else none
    | .star a lz =>
      if lz then
        firstSome (k s prev caps) (fun _ =>
          reM fuel a s prev caps (fun s' p' caps' =>
            if s'.length < s.length then reM fuel (.star a lz) s' p' caps' k
            else k s' p' caps'))
      else
        firstSome (reM fuel a s prev caps (fun s' p' caps' =>
            if s'.length < s.length then reM fuel (.star a lz) s' p' caps' k
            else k s' p' caps')) (fun _ => k s prev caps)

/-- Recursion-depth fuel that is ample for the fixed patterns of the sources
(each nesting level of a pattern costs one unit, and each star iteration
consumes at least one input character). -/
def bigFuel (s : List Char) : Nat := 200 * (s.length + 2)

/-- One match attempt at the current position. -/
def reTry (r : RE) (s : List Char) (prev : Option Char) : MRes :=
  reM (bigFuel s) r s prev [] (fun s' p' caps => some (caps, s', p'))

/-- Scan the input left to right, collecting the captures of each
non-overlapping match (the semantics of `re.finditer`/`re.findall`). -/
def scanAux (r : RE) : Nat → List Char → Option Char → List Caps → List Caps
  | 0, _, _, acc => acc.reverse
  | fuel + 1, s, prev, acc =>
    match reTry r s prev with
    | some (caps, s', p') =>
      if s'.length < s.length then scanAux r fuel s' p' (caps :: acc)
      else
        match s with
        | [] => (caps :: acc).reverse
        | c :: tl => scanAux r fuel tl (some c) (caps :: acc)
    | none =>
      match s with
      | [] => acc.reverse
      | c :: tl => scanAux r fuel tl (some c) acc

def findIter (r : RE) (text : String) : List Caps :=
  scanAux r (text.toList.length + 1) text.toList none []

/-- Extract group `n` from one match, as Python's `m.group(n)` (None if the
group did not participate). -/
def capStr (caps : Caps) (n : Nat) : Option String :=
  (caps.find? (fun p => p.1 == n)).map (fun p => String.mk p.2)

/-- Python's `a or b` on optional strings (`None` and `""` are falsy). -/
def pyOr (a b : Option String) : Option String :=
  match a with
  | some s => if s = "" then b else some s
  | none => b

/-! ## Pattern building blocks -/

def litChars : List Char → RE
  | [] => .eps
  | c :: cs => .cat (.ch c) (litChars cs)

def lit (s : String) : RE := litChars s.toList

def reSeq : List RE → RE
  | [] => .eps
  | [r] => r
  | r :: rs => .cat r (reSeq rs)

/-- Greedy `+`. -/
def rplus (r : RE) : RE := .cat r (.star r false)

/-- Lazy `+?`. -/
def rplusLazy (r : RE) : RE := .cat r (.star r true)

/-- Python's `\s` (whitespace) character class. -/
def wsC : RE := .cls fun c =>
  c = ' ' || c = '\t' || c = '\n' || c = '\r' || c = '\x0b' || c = '\x0c'

/-- Greedy `\s*`. -/
def wsStar : RE := .star (.cls fun c =>
  c = ' ' || c = '\t' || c = '\n' || c = '\r' || c = '\x0b' || c = '\x0c') false

/-- Python's `\w` (word) class, ASCII part. -/
def wordC : RE := .cls fun c => c.isAlphanum || c = '_'

/-- `[\w\.]`, ASCII part. -/
def wordDotC : RE := .cls fun c => c.isAlphanum || c = '_' || c = '.'

/-- `['\"]`. -/
def quoteC : RE := .cls fun c => c = '\'' || c = '"'

/-- `[^'\"]`. -/
def notQuoteC : RE := .cls fun c => !(c = '\'' || c = '"')

/-- `[^;]`. -/
def notSemiC : RE := .cls fun c => c ≠ ';'

/-! ## extractor_monthly.py: import extractors -/

namespace Monthly

/-- `ts_import_re`: the regex
`(?:(?:import\s+[^;]+?from\s+['\"]([^'\"]+)['\"])|(?:import\s+['\"]([^'\"]+)['\"]))`. -/
def ts_import_re : RE :=
  .alt
    (reSeq [lit "import", rplus wsC, rplusLazy notSemiC, lit "from", rplus wsC,
            quoteC, .grp 1 (rplus notQuoteC), quoteC])
    (reSeq [lit "import", rplus wsC, quoteC, .grp 2 (rplus notQuoteC), quoteC])

/-- `js_import_re = ts_import_re` in the source. -/
def js_import_re : RE := ts_import_re

/-- `require\(\s*['\"]([^'\"]+)['\"]\s*\)`. -/
def require_re : RE :=
  reSeq [lit "require(", wsStar, quoteC, .grp 1 (rplus notQuoteC), quoteC,
         wsStar, .ch ')']

/-- `^\s*import\s+([A-Za-z0-9_\.]+)` with MULTILINE. -/
def swift_import_re : RE :=
  reSeq [.bol, wsStar, lit "import", rplus wsC,
         .grp 1 (rplus (.cls fun c => c.isAlphanum || c = '_' || c = '.'))]

/-- `extract_typescript_imports`: elements added to the result set, in
discovery order (the Python set is this list's membership). -/
def extract_typescript_imports (text : String) : List String :=
  (findIter ts_import_re text).filterMap fun caps =>
    match pyOr (capStr caps 1) (capStr caps 2) with
    | some m => if m = "" then none else some m
    | none => none

/-- `extract_javascript_imports`: same matches as the TS extractor, plus the
captures of `require_re`. -/
def extract_javascript_imports (text : String) : List String :=
  ((findIter js_import_re text).filterMap fun caps =>
    match pyOr (capStr caps 1) (capStr caps 2) with
    | some m => if m = "" then none else some m
    | none => none) ++
  (findIter require_re text).filterMap (fun caps => capStr caps 1)

/-- `extract_swift_imports`. -/
def extract_swift_imports (text : String) : List String :=
  (findIter swift_import_re text).filterMap (fun caps => capStr caps 1)

end Monthly

/-! ## extractor_trilingual.py: import extractors

Each Python extractor runs `re.findall` for a list of patterns and unions the
group-1 captures into a set; we return the concatenated capture lists (set
content = list membership). -/

namespace Trilingual

/-- The seven TypeScript patterns of `extract_typescript_imports`. -/
def ts_patterns : List RE :=
  [ -- import { something } from 'module'
    reSeq [lit "import", rplus wsC, .ch '\x7b', .star (.cls fun c => c ≠ '\x7d') false,
           .ch '\x7d', rplus wsC, lit "from", rplus wsC, quoteC,
           .grp 1 (rplus notQuoteC), quoteC],
    -- import something from 'module'
    reSeq [lit "import", rplus wsC, rplus wordC, rplus wsC, lit "from", rplus wsC,
           quoteC, .grp 1 (rplus notQuoteC), quoteC],
    -- import * as something from 'module'
    reSeq [lit "import", rplus wsC, .ch '*', rplus wsC, lit "as", rplus wsC,
           rplus wordC, rplus wsC, lit "from", rplus wsC, quoteC,
           .grp 1 (rplus notQuoteC), quoteC],
    -- import type { something } from 'module'
    reSeq [lit "import", rplus wsC, lit "type", rplus wsC, .ch '\x7b',
           .star (.cls fun c => c ≠ '\x7d') false, .ch '\x7d', rplus wsC,
           lit "from", rplus wsC, quoteC, .grp 1 (rplus notQuoteC), quoteC],
    -- import 'module'
    reSeq [lit "import", rplus wsC, quoteC, .grp 1 (rplus notQuoteC), quoteC],
    -- require('module')
    reSeq [lit "require", wsStar, .ch '(', wsStar, quoteC,
           .grp 1 (rplus notQuoteC), quoteC, wsStar, .ch ')'],
    -- import() dynamic imports
    reSeq [lit "import", wsStar, .ch '(', wsStar, quoteC,
           .grp 1 (rplus notQuoteC), quoteC, wsStar, .ch ')'] ]

/-- The seven JavaScript patterns of `extract_javascript_imports`. -/
def js_patterns : List RE :=
  [ reSeq [lit "import", rplus wsC, .ch '\x7b', .star (.cls fun c => c ≠ '\x7d') false,
           .ch '\x7d', rplus wsC, lit "from", rplus wsC, quoteC,
           .grp 1 (rplus notQuoteC), quoteC],
    reSeq [lit "import", rplus wsC, rplus wordC, rplus wsC, lit "from", rplus wsC,
           quoteC, .grp 1 (rplus notQuoteC), quoteC],
    reSeq [lit "import", rplus wsC, .ch '*', rplus wsC, lit "as", rplus wsC,
           rplus wordC, rplus wsC, lit "from", rplus wsC, quoteC,
           .grp 1 (rplus notQuoteC), quoteC],
    reSeq [lit "import", rplus wsC, quoteC, .grp 1 (rplus notQuoteC), quoteC],
    -- (const|let|var) name = require('module')
    reSeq [.alt (lit "const") (.alt (lit "let") (lit "var")), rplus wsC,
           rplus wordC, wsStar, .ch '=', wsStar, lit "require", wsStar, .ch '(',
           wsStar, quoteC, .grp 1 (rplus notQuoteC), quoteC, wsStar, .ch ')'],
    reSeq [lit "require", wsStar, .ch '(', wsStar, quoteC,
           .grp 1 (rplus notQuoteC), quoteC, wsStar, .ch ')'],
    reSeq [lit "import", wsStar, .ch '(', wsStar, quoteC,
           .grp 1 (rplus notQuoteC), quoteC, wsStar, .ch ')'] ]

/-- The five Swift patterns of `extract_swift_imports`. -/
def swift_patterns : List RE :=
  [ -- import Module
    reSeq [.bol, wsStar, lit "import", rplus wsC, .grp 1 (rplus wordC), wsStar, .eol],
    -- import Module.SubModule
    reSeq [.bol, wsStar, lit "import", rplus wsC, .grp 1 (rplus wordDotC), wsStar, .eol],
    -- import struct Module.Type
    reSeq [.bol, wsStar, lit "import", rplus wsC,
           .alt (lit "struct") (.alt (lit "class") (.alt (lit "enum")
             (.alt (lit "protocol") (.alt (lit "typealias")
               (.alt (lit "func") (.alt (lit "let") (lit "var"))))))),
           rplus wsC, .grp 1 (rplus wordDotC)],
    -- @testable import Module
    reSeq [.bol, wsStar, lit "@testable", rplus wsC, lit "import", rplus wsC,
           .grp 1 (rplus wordC), wsStar, .eol],
    -- import Module; import AnotherModule (multiple on one line)
    reSeq [lit "import", rplus wsC, .grp 1 (rplus wordC),
           .alt (reSeq [wsStar, .ch ';']) (reSeq [wsStar, .eol])] ]

def runPatterns (ps : List RE) (text : String) : List String :=
  ps.foldr (fun r acc => (findIter r text).filterMap (fun caps => capStr caps 1) ++ acc) []

def extract_typescript_imports (text : String) : List String :=
  runPatterns ts_patterns text

def extract_javascript_imports (text : String) : List String :=
  runPatterns js_patterns text

def extract_swift_imports (text : String) : List String :=
  runPatterns swift_patterns text

end Trilingual

/-- Fixture of spec §8.4 / claim C4. -/
def tsFixture : String :=
  "import \x7b a \x7d from \"pkg1\";\nimport b from \"pkg2\"\nconst c = require(\"pkg3\")"

/-- Fixture of spec §8.5 / claim C5. -/
def swiftFixture : String := "import Foundation\n@testable import MyModule"

example : Monthly.extract_typescript_imports tsFixture = ["pkg1", "pkg2"] := by decide
example : Monthly.extract_javascript_imports tsFixture = ["pkg1", "pkg2", "pkg3"] := by decide
example : Monthly.extract_swift_imports swiftFixture = ["Foundation"] := by decide
example : (Trilingual.extract_typescript_imports tsFixture).dedup = ["pkg1", "pkg2", "pkg3"] := by decide
example : (Trilingual.extract_swift_imports swiftFixture).dedup = ["Foundation", "MyModule"] := by decide

/-! ## File classification and per-commit analysis -/

/-- Python's `str.lower()` (ASCII part, which is all the suffix tests use),
defined character-wise so that it evaluates in the kernel. -/
def pyLower (s : String) : String := String.mk (s.data.map Char.toLower)

/-- Python's `str.endswith(suf)`: suffix test on the code-point sequence. -/
def pyEndsWith (s suf : String) : Bool :=
  s.data.drop (s.data.length - suf.data.length) == suf.data

namespace Monthly

/-- `is_typescript_file` of `extractor_monthly.py`: lower-case, then test the
suffixes `.ts`, `.tsx`. -/
def is_typescript_file (p : String) : Bool :=
  pyEndsWith (pyLower p) ".ts" || pyEndsWith (pyLower p) ".tsx"

/-- `is_javascript_file` of `extractor_monthly.py`. -/
def is_javascript_file (p : String) : Bool :=
  pyEndsWith (pyLower p) ".js" || pyEndsWith (pyLower p) ".jsx"

/-- `is_swift_file` of `extractor_monthly.py`. -/
def is_swift_file (p : String) : Bool :=
  pyEndsWith (pyLower p) ".swift"

/-- `CommitResult` dataclass.  The Python `Dict[str, List[str]]` mappings are
insertion-ordered association lists. -/
structure CommitResult where
  sha : String
  files : List String
  typescript_imports : List (String × List String)
  javascript_imports : List (String × List String)
  swift_imports : List (String × List String)
deriving DecidableEq

end Monthly

/-- Lexicographic (code-point) order on character lists — Python's `<=` on
`str`, defined so that it evaluates in the kernel. -/
def strLeChars : List Char → List Char → Bool
  | [], _ => true
  | _ :: _, [] => false
  | a :: as, b :: bs => if a = b then strLeChars as bs else decide (a < b)

/-- Python's `s <= t` on strings. -/
def pyStrLe (s t : String) : Bool := strLeChars s.data t.data

theorem strLeChars_total : ∀ as bs : List Char,
    strLeChars as bs = true ∨ strLeChars bs as = true
  | [], _ => Or.inl rfl
  | _ :: _, [] => Or.inr rfl
  | a :: as, b :: bs => by
    by_cases hab : a = b
    · subst hab
      simp only [strLeChars, if_pos rfl]
      exact strLeChars_total as bs
    · rcases lt_trichotomy a b with hlt | heq | hgt
      · left
        simp only [strLeChars, if_neg hab]
        exact decide_eq_true hlt
      · exact absurd heq hab
      · right
        simp only [strLeChars, if_neg (Ne.symm hab)]
        exact decide_eq_true hgt

theorem strLeChars_trans : ∀ as bs cs : List Char,
    strLeChars as bs = true → strLeChars bs cs = true → strLeChars as cs = true
  | [], _, _, _, _ => rfl
  | _ :: _, [], _, h, _ => absurd h (by simp [strLeChars])
  | _ :: _, _ :: _, [], _, h2 => absurd h2 (by simp [strLeChars])
  | a :: as, b :: bs, c :: cs, h1, h2 => by
    by_cases hab : a = b
    · subst hab
      simp only [strLeChars, if_pos rfl] at h1
      by_cases hac : a = c
      · subst hac
        simp only [strLeChars, if_pos rfl] at h2 ⊢
        exact strLeChars_trans as bs cs h1 h2
      · simp only [strLeChars, if_neg hac] at h2 ⊢
        exact h2
    · simp only [strLeChars, if_neg hab] at h1
      have hab' : a < b := of_decide_eq_true h1
      by_cases hbc : b = c
      · subst hbc
        simp only [strLeChars, if_neg hab]
        exact decide_eq_true hab'
      · simp only [strLeChars, if_neg hbc] at h2
        have hbc' : b < c := of_decide_eq_true h2
        have hac' : a < c := lt_trans hab' hbc'
        simp only [strLeChars, if_neg (ne_of_lt hac')]
        exact decide_eq_true hac'

instance : IsTotal String (fun a b => pyStrLe a b = true) :=
  ⟨fun a b => strLeChars_total a.data b.data⟩

instance : IsTrans String (fun a b => pyStrLe a b = true) :=
  ⟨fun a b c => strLeChars_trans a.data b.data c.data⟩

namespace Monthly

/-- Python's `sorted(mods)` where `mods` is a set collected as a list:
lexicographic sort of the deduplicated elements. -/
def sortedSet (l : List String) : List String :=
  List.insertionSort (fun a b => pyStrLe a b = true) l.dedup

end Monthly

/-- One `if/elif` branch of the per-file loops of both `analyze_commit`
implementations: when `guard` accepts the path, fetch the content (`none` =
the `git show` call failed), skip `None`/empty content (`if content:`), run
the extractor, skip empty results (`if mods:`/`if imports:`), and store the
result set via `store` (`sorted(...)` in the monthly analyzer, `list(...)` in
the trilingual one). -/
def scanBranch (guard : String → Bool) (ex : String → List String)
    (store : List String → List String) (content : String → Option String)
    (fp : String) : Option (String × List String) :=
  if guard fp then
    match content fp with
    | some c =>
      if c = "" then none
      else if (ex c).dedup = [] then none else some (fp, store (ex c))
    | none => none
  else none

namespace Monthly

/-- `analyze_commit`.  The Python loop appends to the three dicts in mutually
exclusive `if/elif` branches, so each mapping is the `filterMap` of its branch
over the commit's file list. -/
def analyze_commit (sha : String) (files : List String)
    (content : String → String → Option String) : CommitResult where
  sha := sha
  files := files
  typescript_imports := files.filterMap
    (scanBranch is_typescript_file extract_typescript_imports sortedSet (content sha))
  javascript_imports := files.filterMap
    (scanBranch (fun fp => !is_typescript_file fp && is_javascript_file fp)
      extract_javascript_imports sortedSet (content sha))
  swift_imports := files.filterMap
    (scanBranch (fun fp => !is_typescript_file fp && !is_javascript_file fp &&
        is_swift_file fp)
      extract_swift_imports sortedSet (content sha))

/-- `analyze_commits`: one record per selected commit, in order.  `filesAt`
models `list_files_at_commit`. -/
def analyze_commits (commits : List String) (filesAt : String → List String)
    (content : String → String → Option String) : List CommitResult :=
  commits.map fun sha => analyze_commit sha (filesAt sha) content

end Monthly

namespace Trilingual

/-- `is_typescript_file` of `extractor_trilingual.py`: case-sensitive
`endswith(('.ts', '.tsx', '.mts', '.cts'))`. -/
def is_typescript_file (p : String) : Bool :=
  pyEndsWith p ".ts" || pyEndsWith p ".tsx" || pyEndsWith p ".mts" ||
    pyEndsWith p ".cts"

/-- `is_javascript_file` of `extractor_trilingual.py`. -/
def is_javascript_file (p : String) : Bool :=
  pyEndsWith p ".js" || pyEndsWith p ".jsx" || pyEndsWith p ".mjs" ||
    pyEndsWith p ".cjs"

/-- `is_swift_file` of `extractor_trilingual.py`. -/
def is_swift_file (p : String) : Bool :=
  pyEndsWith p ".swift"

/-- File-scanning part of `analyze_commit` of `extractor_trilingual.py`:
the three import mappings built from the commit's file list.  `list(imports)`
enumerates a Python set, whose iteration order is interpreter-dependent; we
fix the first-discovery order (`dedup`), and prove no order-dependent facts
about these mappings. -/
def analyze_files (files : List String) (content : String → Option String) :
    List (String × List String) × List (String × List String) ×
      List (String × List String) :=
  (files.filterMap
    (scanBranch is_typescript_file extract_typescript_imports List.dedup content),
   files.filterMap
    (scanBranch (fun fp => !is_typescript_file fp && is_javascript_file fp)
      extract_javascript_imports List.dedup content),
   files.filterMap
    (scanBranch (fun fp => !is_typescript_file fp && !is_javascript_file fp &&
        is_swift_file fp)
      extract_swift_imports List.dedup content))

end Trilingual

/-! ## Claims C4, C5, C10 -/

/-- Claim C4, counterexample: on the fixture
`import { a } from "pkg1"; import b from "pkg2"; const c = require("pkg3")`
the TypeScript extractor of `extractor_monthly.py` does NOT return
`{"pkg1","pkg2","pkg3"}` (its `ts_import_re` has no `require` branch, so
`pkg3` is missed). -/
theorem c4_counterexample :
    (Monthly.extract_typescript_imports tsFixture).toFinset ≠
      ({"pkg1", "pkg2", "pkg3"} : Finset String) := by decide

/-- Claim C4, amended: the TypeScript extractor of `extractor_trilingual.py`
(whose pattern list includes `require(...)`) returns exactly
`{"pkg1","pkg2","pkg3"}` on the fixture, while the TypeScript extractor of
`extractor_monthly.py` returns exactly `{"pkg1","pkg2"}`. -/
theorem c4_amended :
    (Trilingual.extract_typescript_imports tsFixture).toFinset =
      ({"pkg1", "pkg2", "pkg3"} : Finset String) ∧
    (Monthly.extract_typescript_imports tsFixture).toFinset =
      ({"pkg1", "pkg2"} : Finset String) := by decide

/-- Claim C5, counterexample: on the fixture
`import Foundation` + `@testable import MyModule` the Swift extractor of
`extractor_monthly.py` does NOT return `{"Foundation","MyModule"}`: its single
pattern `^\s*import\s+([A-Za-z0-9_\.]+)` cannot match a line starting with
`@testable`, so `MyModule` is missed. -/
theorem c5_counterexample :
    (Monthly.extract_swift_imports swiftFixture).toFinset ≠
      ({"Foundation", "MyModule"} : Finset String) := by decide

/-- Claim C5, amended: the Swift extractor of `extractor_trilingual.py`
(which has a dedicated `@testable` pattern) returns exactly
`{"Foundation","MyModule"}` on the fixture — the `@testable` keyword itself is
not captured — while the Swift extractor of `extractor_monthly.py` returns
exactly `{"Foundation"}`. -/
theorem c5_amended :
    (Trilingual.extract_swift_imports swiftFixture).toFinset =
      ({"Foundation", "MyModule"} : Finset String) ∧
    (Monthly.extract_swift_imports swiftFixture).toFinset =
      ({"Foundation"} : Finset String) := by decide

/-- Claim C10: for every input text, the specifier set returned by the monthly
analyzer's TypeScript extractor is a subset of the one returned by its
JavaScript extractor (both run the identical `ts_import_re = js_import_re`
regex, and the JavaScript extractor additionally collects `require(...)`
captures). -/
theorem c10_ts_subset_js (text : String) :
    (Monthly.extract_typescript_imports text).toFinset ⊆
      (Monthly.extract_javascript_imports text).toFinset := by
  intro s hs
  rw [List.mem_toFinset] at hs ⊢
  exact List.mem_append_left _ hs

/-- Witness for C10 at the concrete fixture: `pkg1` is found by the TS
extractor, hence by the JS extractor. -/
theorem c10_ts_subset_js_witness :
    "pkg1" ∈ (Monthly.extract_javascript_imports tsFixture).toFinset :=
  c10_ts_subset_js tsFixture (by decide)

/-! ## Claims C3, C8, C9 -/

theorem scanBranch_some {g : String → Bool} {ex : String → List String}
    {st : List String → List String} {c : String → Option String}
    {fp fp' : String} {l : List String}
    (h : scanBranch g ex st c fp' = some (fp, l)) :
    g fp' = true ∧ ∃ xs, xs.dedup ≠ [] ∧ l = st xs := by
  unfold scanBranch at h
  by_cases hg : g fp' = true
  · rw [if_pos hg] at h
    refine ⟨hg, ?_⟩
    cases hc : c fp' with
    | none => rw [hc] at h; exact absurd h (by simp)
    | some cv =>
      rw [hc] at h
      have h2 : (if cv = "" then (none : Option (String × List String))
          else if (ex cv).dedup = [] then none
          else some (fp', st (ex cv))) = some (fp, l) := h
      by_cases he : cv = ""
      · rw [if_pos he] at h2; exact absurd h2 (by simp)
      · rw [if_neg he] at h2
        by_cases hd : (ex cv).dedup = []
        · rw [if_pos hd] at h2; exact absurd h2 (by simp)
        · rw [if_neg hd] at h2
          simp only [Option.some.injEq, Prod.mk.injEq] at h2
          exact ⟨ex cv, hd, h2.2.symm⟩
  · rw [if_neg hg] at h
    exact absurd h (by simp)

theorem scanBranch_congr {g : String → Bool} {ex : String → List String}
    {st : List String → List String} {c₁ c₂ : String → Option String}
    {fp : String} (h : g fp = true → c₁ fp = c₂ fp) :
    scanBranch g ex st c₁ fp = scanBranch g ex st c₂ fp := by
  unfold scanBranch
  by_cases hg : g fp = true
  · rw [if_pos hg, if_pos hg, h hg]
  · rw [if_neg hg, if_neg hg]

theorem sortedSet_sorted (l : List String) :
    (Monthly.sortedSet l).Sorted (fun a b => pyStrLe a b = true) :=
  List.sorted_insertionSort _ _

theorem sortedSet_nodup (l : List String) : (Monthly.sortedSet l).Nodup :=
  (List.perm_insertionSort _ _).nodup_iff.mpr (List.nodup_dedup l)

theorem sortedSet_ne_nil {l : List String} (h : l.dedup ≠ []) :
    Monthly.sortedSet l ≠ [] := by
  intro hnil
  apply h
  have hp : l.dedup.Perm ([] : List String) := by
    rw [← hnil]
    exact (List.perm_insertionSort _ _).symm
  exact hp.eq_nil

/-- Value admissible for `list(imports)` in `analyze_commit` of
`extractor_trilingual.py`: `imports` is a Python set and `list` enumerates it
in set-iteration order, which the interpreter does not fix (string hashing is
randomized per run), so any duplicate-free listing with exactly the set's
members is an admissible output of that line. -/
def admissibleListing (s out : List String) : Prop :=
  out.Nodup ∧ (∀ x ∈ out, x ∈ s) ∧ (∀ x ∈ s, x ∈ out)

/-- Claim C3, counterexample: in `analyze_commit` of `extractor_trilingual.py`
the per-file value is `list(imports)` — an enumeration of a Python set in an
order the interpreter does not fix.  For a TypeScript file importing "zebra"
and then "alpha", the listing `["zebra", "alpha"]` is admissible (same
members, no duplicates) yet not lexicographically sorted, so the claimed
deterministic lexicographic emission does not hold for this cited
implementation (and across runs the emitted order need not even repeat). -/
theorem c3_counterexample :
    admissibleListing
        (Trilingual.extract_typescript_imports
          "import a from \"zebra\";\nimport b from \"alpha\";")
        ["zebra", "alpha"] ∧
    ¬ (["zebra", "alpha"] : List String).Sorted
        (fun a b => pyStrLe a b = true) := by
  refine ⟨⟨by decide, by decide, by decide⟩, by decide⟩

/-- Claim C3, amended (the half that holds, for `extractor_monthly.py`): the
monthly analysis pipeline is a pure function of the commit history, so two
runs with the same sampling mode produce identical output; the output is
canonical: the records appear in exactly the sampled commit order, and every
per-file specifier list is the deduplicated specifier set sorted
lexicographically (`sorted(mods)`), hence `Sorted` and `Nodup`.  For
`extractor_trilingual.py` the per-file order is the interpreter's
set-iteration order — see the counterexample above. -/
theorem c3_canonical_output :
    (∀ (commits : List String) (filesAt : String → List String)
        (content : String → String → Option String),
      (Monthly.analyze_commits commits filesAt content).map
          Monthly.CommitResult.sha = commits) ∧
    (∀ (commits : List String) (filesAt : String → List String)
        (content : String → String → Option String),
      ∀ r ∈ Monthly.analyze_commits commits filesAt content,
        ∀ fp l, ((fp, l) ∈ r.typescript_imports ∨ (fp, l) ∈ r.javascript_imports ∨
            (fp, l) ∈ r.swift_imports) →
          l.Sorted (fun a b => pyStrLe a b = true) ∧ l.Nodup) := by
  constructor
  · intro commits filesAt content
    unfold Monthly.analyze_commits
    rw [List.map_map]
    have hid : (Monthly.CommitResult.sha ∘ fun sha =>
        Monthly.analyze_commit sha (filesAt sha) content) = id := rfl
    rw [hid, List.map_id]
  · intro commits filesAt content r hr fp l hmem
    simp only [Monthly.analyze_commits, List.mem_map] at hr
    obtain ⟨sha, -, rfl⟩ := hr
    have hshape : ∃ xs, l = Monthly.sortedSet xs := by
      rcases hmem with h | h | h <;>
        simp only [Monthly.analyze_commit, List.mem_filterMap] at h <;>
        obtain ⟨a, -, ha⟩ := h <;>
        obtain ⟨-, xs, -, hl⟩ := scanBranch_some ha <;>
        exact ⟨xs, hl⟩
    obtain ⟨xs, rfl⟩ := hshape
    exact ⟨sortedSet_sorted xs, sortedSet_nodup xs⟩

/-- Witness for C3 at a concrete input: a one-commit history with one
TypeScript file; the record order matches and its specifier list is sorted. -/
theorem c3_canonical_output_witness :
    (Monthly.analyze_commits ["c1"] (fun _ => ["a.ts"])
        (fun _ _ => some "import \"zlib\";\nimport \"b\";")).map
      Monthly.CommitResult.sha = ["c1"] ∧
    (["b", "zlib"] : List String).Sorted (fun a b => pyStrLe a b = true) ∧
      (["b", "zlib"] : List String).Nodup := by
  refine ⟨c3_canonical_output.1 _ _ _, ?_⟩
  exact c3_canonical_output.2 ["c1"] (fun _ => ["a.ts"])
    (fun _ _ => some "import \"zlib\";\nimport \"b\";")
    (Monthly.analyze_commit "c1" ["a.ts"]
      (fun _ _ => some "import \"zlib\";\nimport \"b\";"))
    (by decide) "a.ts" ["b", "zlib"] (Or.inl (by decide))

/-- Claim C8: in every record produced by analyzing a commit — in the monthly
analyzer and in the trilingual one — a file path appears as a key of a
per-language mapping only with a non-empty specifier list (empty extraction
results are omitted, never stored as empty lists). -/
theorem c8_no_empty_entries :
    (∀ (sha : String) (files : List String)
        (content : String → String → Option String) (fp : String) (l : List String),
      ((fp, l) ∈ (Monthly.analyze_commit sha files content).typescript_imports ∨
       (fp, l) ∈ (Monthly.analyze_commit sha files content).javascript_imports ∨
       (fp, l) ∈ (Monthly.analyze_commit sha files content).swift_imports) →
      l ≠ []) ∧
    (∀ (files : List String) (content : String → Option String)
        (fp : String) (l : List String),
      ((fp, l) ∈ (Trilingual.analyze_files files content).1 ∨
       (fp, l) ∈ (Trilingual.analyze_files files content).2.1 ∨
       (fp, l) ∈ (Trilingual.analyze_files files content).2.2) →
      l ≠ []) := by
  constructor
  · intro sha files content fp l hmem
    have hshape : ∃ xs : List String, xs.dedup ≠ [] ∧ l = Monthly.sortedSet xs := by
      rcases hmem with h | h | h <;>
        simp only [Monthly.analyze_commit, List.mem_filterMap] at h <;>
        obtain ⟨a, -, ha⟩ := h <;>
        obtain ⟨-, xs, hded, hl⟩ := scanBranch_some ha <;>
        exact ⟨xs, hded, hl⟩
    obtain ⟨xs, hded, rfl⟩ := hshape
    exact sortedSet_ne_nil hded
  · intro files content fp l hmem
    have hshape : ∃ xs : List String, xs.dedup ≠ [] ∧ l = xs.dedup := by
      rcases hmem with h | h | h <;>
        simp only [Trilingual.analyze_files, List.mem_filterMap] at h <;>
        obtain ⟨a, -, ha⟩ := h <;>
        obtain ⟨-, xs, hded, hl⟩ := scanBranch_some ha <;>
        exact ⟨xs, hded, hl⟩
    obtain ⟨xs, hded, rfl⟩ := hshape
    exact hded

/-- Witness for C8: a concrete commit whose one TypeScript file yields the
entry `("a.ts", ["x"])`, whose list is indeed non-empty. -/
theorem c8_no_empty_entries_witness : (["x"] : List String) ≠ [] :=
  c8_no_empty_entries.1 "c1" ["a.ts"] (fun _ _ => some "import \"x\";") "a.ts" ["x"]
    (Or.inl (by decide))

/-- Claim C9, counterexample: classification is NOT "case-insensitive with
exactly the suffix sets {.ts,.tsx,.mts,.cts} / {.js,.jsx,.mjs,.cjs} /
{.swift}" in either implementation: the monthly classifier (case-insensitive)
rejects `a.mts`/`a.mjs`, and the trilingual classifier (which has the full
suffix sets) is case-sensitive and rejects `A.TS`. -/
theorem c9_counterexample :
    Monthly.is_typescript_file "a.mts" = false ∧
    Monthly.is_javascript_file "a.mjs" = false ∧
    Trilingual.is_typescript_file "A.TS" = false := by decide

/-- Claim C9, amended: language classification is decided by suffix only, but
the two implementations differ: the monthly classifier lowercases the path
(case-insensitive) and accepts exactly `{.ts,.tsx}` / `{.js,.jsx}` /
`{.swift}`, while the trilingual classifier is case-sensitive and accepts
exactly `{.ts,.tsx,.mts,.cts}` / `{.js,.jsx,.mjs,.cjs}` / `{.swift}`.  In the
monthly analyzer a path matching none of the suffixes is skipped entirely:
its content is never fetched (the result does not depend on the content
oracle's values at unclassified paths). -/
theorem c9_amended :
    (∀ p q : String, pyLower p = pyLower q →
      Monthly.is_typescript_file p = Monthly.is_typescript_file q ∧
      Monthly.is_javascript_file p = Monthly.is_javascript_file q ∧
      Monthly.is_swift_file p = Monthly.is_swift_file q) ∧
    (∀ p : String,
      Monthly.is_typescript_file p =
        (pyEndsWith (pyLower p) ".ts" || pyEndsWith (pyLower p) ".tsx") ∧
      Monthly.is_javascript_file p =
        (pyEndsWith (pyLower p) ".js" || pyEndsWith (pyLower p) ".jsx") ∧
      Monthly.is_swift_file p = pyEndsWith (pyLower p) ".swift" ∧
      Trilingual.is_typescript_file p =
        (pyEndsWith p ".ts" || pyEndsWith p ".tsx" || pyEndsWith p ".mts" ||
          pyEndsWith p ".cts") ∧
      Trilingual.is_javascript_file p =
        (pyEndsWith p ".js" || pyEndsWith p ".jsx" || pyEndsWith p ".mjs" ||
          pyEndsWith p ".cjs") ∧
      Trilingual.is_swift_file p = pyEndsWith p ".swift") ∧
    (∀ (sha : String) (files : List String)
        (c₁ c₂ : String → String → Option String),
      (∀ fp ∈ files,
        (Monthly.is_typescript_file fp || Monthly.is_javascript_file fp ||
          Monthly.is_swift_file fp) = true → c₁ sha fp = c₂ sha fp) →
      Monthly.analyze_commit sha files c₁ = Monthly.analyze_commit sha files c₂) := by
  refine ⟨?_, ?_, ?_⟩
  · intro p q hpq
    constructor
    · simp [Monthly.is_typescript_file, hpq]
    constructor
    · simp [Monthly.is_javascript_file, hpq]
    · simp [Monthly.is_swift_file, hpq]
  · intro p
    exact ⟨rfl, rfl, rfl, rfl, rfl, rfl⟩
  · intro sha files c₁ c₂ hagree
    simp only [Monthly.analyze_commit, Monthly.CommitResult.mk.injEq, true_and]
    refine ⟨?_, ?_, ?_⟩
    · refine List.filterMap_congr (fun fp hfp => scanBranch_congr (fun hg => ?_))
      refine hagree fp hfp ?_
      simp [hg]
    · refine List.filterMap_congr (fun fp hfp => scanBranch_congr (fun hg => ?_))
      refine hagree fp hfp ?_
      simp only [Bool.and_eq_true] at hg
      simp [hg.2]
    · refine List.filterMap_congr (fun fp hfp => scanBranch_congr (fun hg => ?_))
      refine hagree fp hfp ?_
      simp only [Bool.and_eq_true] at hg
      simp [hg.2]

/-! ## extractor_monthly.py: commit samplers

The samplers consume the lines of `git log --pretty=format:%H|%ad
--date=iso-strict`.  The weekly sampler parses the date with
`datetime.fromisoformat` (after `ad.replace("Z", "+00:00")`), falling back to
`datetime.strptime(ad[:10], "%Y-%m-%d")`; the fallback call is NOT inside the
`try`, so its `ValueError` propagates out of the function — modelled with
`Except`.  `isocalendar` is the ISO-8601 week-date computation. -/

def isPySpace (c : Char) : Bool :=
  c = ' ' || c = '\t' || c = '\n' || c = '\r' || c = '\x0b' || c = '\x0c'

/-- Python's `str.strip()`. -/
def pyStripChars (cs : List Char) : List Char :=
  ((cs.dropWhile isPySpace).reverse.dropWhile isPySpace).reverse

/-- Split at the first occurrence of `sep` (`str.split(sep, 1)`); `none` when
`sep` does not occur. -/
def splitFirstOn (sep : Char) : List Char → Option (List Char × List Char)
  | [] => none
  | c :: rest =>
    if c = sep then some ([], rest)
    else (splitFirstOn sep rest).map (fun p => (c :: p.1, p.2))

/-- Shared line parsing of both samplers: skip lines without `|`, split once
at `|`, strip both parts, skip the line when either part is empty. -/
def parseShaAd (line : String) : Option (String × String) :=
  match splitFirstOn '|' line.data with
  | none => none
  | some (sha, ad) =>
    let sha := pyStripChars sha
    let ad := pyStripChars ad
    if sha = [] ∨ ad = [] then none else some (String.mk sha, String.mk ad)

def parsedOf (lines : List String) : List (String × String) :=
  lines.filterMap parseShaAd

/-! ### Gregorian / ISO-week calendar (datetime.isocalendar) -/

def isLeap (y : Nat) : Bool := y % 4 == 0 && (y % 100 != 0 || y % 400 == 0)

def daysInMonth (y m : Nat) : Nat :=
  if m = 2 then (if isLeap y then 29 else 28)
  else if m = 4 ∨ m = 6 ∨ m = 9 ∨ m = 11 then 30
  else 31

def dayOfYear (y m d : Nat) : Nat :=
  (List.range (m - 1)).foldl (fun acc i => acc + daysInMonth y (i + 1)) 0 + d

/-- Rata-die day number: 0001-01-01 is day 1 (a Monday). -/
def rataDie (y m d : Nat) : Nat :=
  (365 * (y - 1) + (y - 1) / 4 + (y - 1) / 400 + dayOfYear y m d) - (y - 1) / 100

/-- ISO weekday, 1 = Monday .. 7 = Sunday. -/
def isoWeekday (y m d : Nat) : Nat := (rataDie y m d - 1) % 7 + 1

/-- Number of ISO weeks in year `y` (52 or 53). -/
def isoWeeksIn (y : Nat) : Nat :=
  let p := fun (n : Nat) => ((n + n / 4 + n / 400) - n / 100) % 7
  if p y = 4 ∨ p (y - 1) = 3 then 53 else 52

/-- `date(y, m, d).isocalendar()[:2]`: the ISO year and week number. -/
def isoWeekPair (y m d : Nat) : Nat × Nat :=
  let doy := dayOfYear y m d
  let dow := isoWeekday y m d
  let w := (doy + 10 - dow) / 7
  if w < 1 then (y - 1, isoWeeksIn (y - 1))
  else if w > isoWeeksIn y then (y + 1, 1)
  else (y, w)

/-- `f"{iso_year}-W{iso_week:02d}"`. -/
def isoWeekKey (y m d : Nat) : String :=
  let p := isoWeekPair y m d
  toString p.1 ++ "-W" ++ (if p.2 < 10 then "0" ++ toString p.2 else toString p.2)

example : isoWeekday 2024 3 4 = 1 := by decide
example : isoWeekPair 2024 5 10 = (2024, 19) := by decide
example : isoWeekPair 2023 1 1 = (2022, 52) := by decide
example : isoWeekPair 2016 1 4 = (2016, 1) := by decide
example : isoWeekPair 2021 1 1 = (2020, 53) := by decide
example : isoWeekKey 2024 5 3 = "2024-W18" := by decide

/-! ### Python date parsing -/

def digitVal (c : Char) : Nat := c.toNat - 48

/-- Read exactly `n` digits. -/
def readDigits : Nat → List Char → Option (Nat × List Char)
  | 0, cs => some (0, cs)
  | _ + 1, [] => none
  | n + 1, c :: cs =>
    if c.isDigit then
      (readDigits n cs).map (fun p => (digitVal c * 10 ^ n + p.1, p.2))
    else none

/-- Date part `YYYY-MM-DD` of `datetime.fromisoformat`, with the
`datetime` range checks (year ≥ 1, month 1..12, day within the month). -/
def parseIsoDate (cs : List Char) : Option ((Nat × Nat × Nat) × List Char) :=
  match readDigits 4 cs with
  | none => none
  | some (y, cs) =>
    match cs with
    | '-' :: cs =>
      match readDigits 2 cs with
      | none => none
      | some (m, cs) =>
        match cs with
        | '-' :: cs =>
          match readDigits 2 cs with
          | none => none
          | some (d, cs) =>
            if 1 ≤ y ∧ 1 ≤ m ∧ m ≤ 12 ∧ 1 ≤ d ∧ d ≤ daysInMonth y m
            then some ((y, m, d), cs)
            else none
        | _ => none
    | _ => none

/-- Optional fraction `.fff` or `.ffffff` after seconds (pre-3.11 strict). -/
def parseIsoFrac : List Char → Option (List Char)
  | '.' :: cs =>
    match readDigits 3 cs with
    | none => none
    | some (_, cs1) =>
      match readDigits 3 cs1 with
      | some (_, cs2) => some cs2
      | none => some cs1
  | cs => some cs

/-- Time part `HH[:MM[:SS[.fff[fff]]]]` of pre-3.11 `fromisoformat`. -/
def parseIsoTime (cs : List Char) : Option (List Char) :=
  match readDigits 2 cs with
  | none => none
  | some (hh, cs) =>
    if hh ≥ 24 then none
    else
      match cs with
      | ':' :: cs1 =>
        match readDigits 2 cs1 with
        | none => none
        | some (mm, cs2) =>
          if mm ≥ 60 then none
          else
            match cs2 with
            | ':' :: cs3 =>
              match readDigits 2 cs3 with
              | none => none
              | some (ss, cs4) =>
                if ss ≥ 60 then none else parseIsoFrac cs4
            | rest => some rest
      | rest => some rest

/-- Offset `±HH:MM[:SS[.ffffff]]` of pre-3.11 `fromisoformat`. -/
def parseIsoOffset (cs : List Char) : Option Unit :=
  match cs with
  | sign :: cs =>
    if sign = '+' ∨ sign = '-' then
      match readDigits 2 cs with
      | none => none
      | some (_, cs) =>
        match cs with
        | ':' :: cs =>
          match readDigits 2 cs with
          | none => none
          | some (mm, cs) =>
            if mm ≥ 60 then none
            else
              match cs with
              | [] => some ()
              | ':' :: cs =>
                match readDigits 2 cs with
                | none => none
                | some (ss, cs) =>
                  if ss ≥ 60 then none
                  else
                    match cs with
                    | [] => some ()
                    | '.' :: cs =>
                      match readDigits 6 cs with
                      | some (_, []) => some ()
                      | _ => none
                    | _ => none
              | _ => none
        | _ => none
    else none
  | [] => none

/-- `datetime.fromisoformat` (pre-3.11 strict grammar
`YYYY-MM-DD[*HH[:MM[:SS[.fff[fff]]]][+HH:MM[:SS[.ffffff]]]]`), returning the
parsed calendar date — `isocalendar()` depends only on the date fields, the
zone offset is validated but not applied. -/
def fromisoformat (s : String) : Option (Nat × Nat × Nat) :=
  match parseIsoDate s.data with
  | none => none
  | some (ymd, rest) =>
    match rest with
    | [] => some ymd
    | _sep :: timecs =>
      match parseIsoTime timecs with
      | none => none
      | some rest2 =>
        match rest2 with
        | [] => some ymd
        | _ =>
          match parseIsoOffset rest2 with
          | some _ => some ymd
          | none => none

/-- `%m` of `strptime`: `(1[0-2]|0[1-9]|[1-9])`. -/
def readMonthRe : List Char → Option (Nat × List Char)
  | [] => none
  | '1' :: c :: rest =>
    if '0' ≤ c ∧ c ≤ '2' then some (10 + digitVal c, rest) else some (1, c :: rest)
  | ['1'] => some (1, [])
  | '0' :: c :: rest =>
    if '1' ≤ c ∧ c ≤ '9' then some (digitVal c, rest) else none
  | c :: rest =>
    if '1' ≤ c ∧ c ≤ '9' then some (digitVal c, rest) else none

/-- `%d` of `strptime`: `(3[01]|[12]\d|0[1-9]|[1-9])`. -/
def readDayRe : List Char → Option (Nat × List Char)
  | [] => none
  | '3' :: c :: rest =>
    if c = '0' ∨ c = '1' then some (30 + digitVal c, rest) else some (3, c :: rest)
  | ['3'] => some (3, [])
  | '0' :: c :: rest =>
    if '1' ≤ c ∧ c ≤ '9' then some (digitVal c, rest) else none
  | c :: c2 :: rest =>
    if (c = '1' ∨ c = '2') ∧ c2.isDigit then some (digitVal c * 10 + digitVal c2, rest)
    else if '1' ≤ c ∧ c ≤ '9' then some (digitVal c, c2 :: rest)
    else none
  | [c] => if '1' ≤ c ∧ c ≤ '9' then some (digitVal c, []) else none

/-- `datetime.strptime(s, "%Y-%m-%d")`: `%Y` is exactly four digits, the whole
string must be consumed, and the `datetime` constructor re-validates the day
against the month (`ValueError` = `none`). -/
def strptimeYMD (s : String) : Option (Nat × Nat × Nat) :=
  match readDigits 4 s.data with
  | none => none
  | some (y, cs) =>
    match cs with
    | '-' :: cs =>
      match readMonthRe cs with
      | none => none
      | some (m, cs) =>
        match cs with
        | '-' :: cs =>
          match readDayRe cs with
          | some (d, []) =>
            if 1 ≤ y ∧ 1 ≤ d ∧ d ≤ daysInMonth y m then some (y, m, d) else none
          | _ => none
        | _ => none
    | _ => none

example : fromisoformat "2024-05-10T12:34:56+02:00" = some (2024, 5, 10) := by decide
example : fromisoformat "2024-05-10" = some (2024, 5, 10) := by decide
example : fromisoformat "2024-05-10 oops" = none := by decide
example : fromisoformat "b" = none := by decide
example : fromisoformat "2024-02-30T00:00:00+00:00" = none := by decide
example : strptimeYMD "2024-05-10" = some (2024, 5, 10) := by decide
example : strptimeYMD "2024-5-9" = some (2024, 5, 9) := by decide
example : strptimeYMD "2023-02-29" = none := by decide
example : strptimeYMD "b" = none := by decide

/-! ### The samplers -/

namespace Monthly

/-- `ad[:7]`, the `"YYYY-MM"` month key. -/
def monthKey (ad : String) : String := String.mk (ad.data.take 7)

/-- `ad.replace("Z", "+00:00")` (replaces every occurrence). -/
def replaceZ : List Char → List Char
  | [] => []
  | c :: rest =>
    if c = 'Z' then '+' :: '0' :: '0' :: ':' :: '0' :: '0' :: replaceZ rest
    else c :: replaceZ rest

/-- Week-key computation of `list_weekly_latest_commits` for one date string:
`try: fromisoformat(ad.replace("Z","+00:00")) except: strptime(ad[:10],
"%Y-%m-%d")`; `none` means the uncaught `strptime` `ValueError`. -/
def weekKeyOfAd (ad : String) : Option String :=
  match fromisoformat (String.mk (replaceZ ad.data)) with
  | some (y, m, d) => some (isoWeekKey y m d)
  | none =>
    match strptimeYMD (String.mk (ad.data.take 10)) with
    | some (y, m, d) => some (isoWeekKey y m d)
    | none => none

/-- Loop of `list_monthly_latest_commits`: `latest_by_month` is an
insertion-ordered association list; `if month_key not in latest_by_month:
latest_by_month[month_key] = sha`. -/
def list_monthly_go : List String → List (String × String) → List (String × String)
  | [], acc => acc
  | line :: rest, acc =>
    match parseShaAd line with
    | none => list_monthly_go rest acc
    | some (sha, ad) =>
      let key := monthKey ad
      if acc.any (fun p => p.1 == key) then list_monthly_go rest acc
      else list_monthly_go rest (acc ++ [(key, sha)])

/-- `list_monthly_latest_commits`: `list(latest_by_month.values())`. -/
def list_monthly_latest_commits (lines : List String) : List String :=
  (list_monthly_go lines []).map Prod.snd

/-- Loop of `list_weekly_latest_commits`; a line whose date fails both parses
raises, aborting the whole call (`Except.error`). -/
def list_weekly_go : List String → List (String × String) →
    Except Unit (List (String × String))
  | [], acc => .ok acc
  | line :: rest, acc =>
    match parseShaAd line with
    | none => list_weekly_go rest acc
    | some (sha, ad) =>
      match weekKeyOfAd ad with
      | none => .error ()
      | some key =>
        if acc.any (fun p => p.1 == key) then list_weekly_go rest acc
        else list_weekly_go rest (acc ++ [(key, sha)])

/-- `list_weekly_latest_commits`: `list(latest_by_week.values())`, or the
propagated `ValueError`. -/
def list_weekly_latest_commits (lines : List String) : Except Unit (List String) :=
  (list_weekly_go lines []).map (List.map Prod.snd)

end Monthly

example :
    Monthly.list_monthly_latest_commits
      ["a|2024-05-10T10:00:00+00:00", "b|2024-05-03T09:00:00+00:00",
       "c|2024-04-20T08:00:00+00:00"] = ["a", "c"] := by decide
example :
    Monthly.list_weekly_latest_commits
      ["a|2024-05-10T10:00:00+00:00", "b|2024-05-03T09:00:00+00:00",
       "c|2024-04-20T08:00:00+00:00"] = .ok ["a", "b", "c"] := rfl
example : Monthly.list_weekly_latest_commits ["a|b"] = .error () := rfl
example : Monthly.weekKeyOfAd "2024-05-10 oops" = some "2024-W19" := by decide

/-- Generic first-wins bucket fold; both samplers are instances of it
(`bucketGo_monthly`, `bucketGo_weekly`). -/
def bucketGo (keyOf : String × String → Option String) :
    List (String × String) → List (String × String) →
      Except Unit (List (String × String))
  | [], acc => .ok acc
  | e :: rest, acc =>
    match keyOf e with
    | none => .error ()
    | some key =>
      if acc.any (fun p => p.1 == key) then bucketGo keyOf rest acc
      else bucketGo keyOf rest (acc ++ [(key, e.1)])

/-- Witness for C9 (amended): the lowered-path clause at `A.Ts` vs `a.ts`,
and the never-fetched clause at a commit whose only file is unclassified, with
two oracles that disagree on it. -/
theorem c9_amended_witness :
    Monthly.is_typescript_file "A.Ts" = Monthly.is_typescript_file "a.ts" ∧
    Monthly.analyze_commit "c1" ["notes.txt"] (fun _ _ => some "import \"x\";") =
      Monthly.analyze_commit "c1" ["notes.txt"] (fun _ _ => none) :=
  ⟨(c9_amended.1 "A.Ts" "a.ts" (by decide)).1,
   c9_amended.2.2 "c1" ["notes.txt"] _ _ (by decide)⟩

/-! ## Claims C1 and C6 -/

theorem anyKey_iff {l : List (String × String)} {k : String} :
    (l.any (fun p => p.1 == k) = true) ↔ ∃ v, (k, v) ∈ l := by
  simp only [List.any_eq_true, beq_iff_eq]
  constructor
  · rintro ⟨p, hp, h1⟩
    subst h1
    exact ⟨p.2, by rwa [Prod.mk.eta]⟩
  · rintro ⟨v, hv⟩
    exact ⟨(k, v), hv, rfl⟩

theorem bucketGo_ok_spec (keyOf : String × String → Option String)
    (ts : String → Int) :
    ∀ (P : List (String × String)) (acc res : List (String × String)),
      List.Pairwise (fun e e' => ts e.2 ≥ ts e'.2) P →
      bucketGo keyOf P acc = .ok res →
      ∃ ext, res = acc ++ ext ∧
        (∀ ke ∈ ext, (acc.any (fun p => p.1 == ke.1)) = false ∧
          ∃ e ∈ P, keyOf e = some ke.1 ∧ e.1 = ke.2 ∧
            ∀ e' ∈ P, keyOf e' = some ke.1 → ts e.2 ≥ ts e'.2) ∧
        (∀ e ∈ P, ∀ k, keyOf e = some k →
          (acc.any (fun p => p.1 == k)) = true ∨
            (ext.any (fun p => p.1 == k)) = true) := by
  intro P
  induction P with
  | nil =>
    intro acc res _ h
    simp only [bucketGo, Except.ok.injEq] at h
    subst h
    exact ⟨[], by simp, by simp, by simp⟩
  | cons e P' ih =>
    intro acc res hpw h
    obtain ⟨hhead, htail⟩ := List.pairwise_cons.mp hpw
    rw [bucketGo] at h
    cases hk : keyOf e with
    | none => rw [hk] at h; exact absurd h (by simp)
    | some k =>
      rw [hk] at h
      have h2 : (if (acc.any fun p => p.1 == k) = true then bucketGo keyOf P' acc
          else bucketGo keyOf P' (acc ++ [(k, e.1)])) = .ok res := h
      by_cases hany : (acc.any (fun p => p.1 == k)) = true
      · rw [if_pos hany] at h2
        obtain ⟨ext, hres, hext, hcov⟩ := ih acc res htail h2
        refine ⟨ext, hres, ?_, ?_⟩
        · intro ke hke
          obtain ⟨hkacc, e₀, he₀, hkey₀, hv₀, hmax₀⟩ := hext ke hke
          refine ⟨hkacc, e₀, List.mem_cons_of_mem _ he₀, hkey₀, hv₀, ?_⟩
          intro e' he' hkey'
          rcases List.mem_cons.mp he' with rfl | he'mem
          · rw [hk] at hkey'
            injection hkey' with hkk
            rw [← hkk] at hkacc
            rw [hkacc] at hany
            exact absurd hany (by simp)
          · exact hmax₀ e' he'mem hkey'
        · intro e' he' k' hk'
          rcases List.mem_cons.mp he' with rfl | he'mem
          · rw [hk] at hk'
            injection hk' with hkk
            exact Or.inl (hkk ▸ hany)
          · exact hcov e' he'mem k' hk'
      · rw [if_neg hany] at h2
        obtain ⟨ext', hres, hext, hcov⟩ := ih (acc ++ [(k, e.1)]) res htail h2
        refine ⟨(k, e.1) :: ext', by simpa using hres, ?_, ?_⟩
        · intro ke hke
          rcases List.mem_cons.mp hke with rfl | hkemem
          · refine ⟨Bool.eq_false_iff.mpr hany, e, List.mem_cons_self _ _, hk, rfl, ?_⟩
            intro e' he' _
            rcases List.mem_cons.mp he' with rfl | he'mem
            · exact le_refl _
            · exact hhead e' he'mem
          · obtain ⟨hkacc', e₀, he₀, hkey₀, hv₀, hmax₀⟩ := hext ke hkemem
            rw [List.any_append] at hkacc'
            simp only [Bool.or_eq_false_iff] at hkacc'
            obtain ⟨haccf, hsingle⟩ := hkacc'
            have hkne : k ≠ ke.1 := by
              intro hkk
              simp [hkk] at hsingle
            refine ⟨haccf, e₀, List.mem_cons_of_mem _ he₀, hkey₀, hv₀, ?_⟩
            intro e' he' hkey'
            rcases List.mem_cons.mp he' with rfl | he'mem
            · rw [hk] at hkey'
              injection hkey' with hkk
              exact absurd hkk hkne
            · exact hmax₀ e' he'mem hkey'
        · intro e' he' k' hk'
          rcases List.mem_cons.mp he' with rfl | he'mem
          · rw [hk] at hk'
            injection hk' with hkk
            subst hkk
            right
            simp
          · rcases hcov e' he'mem k' hk' with hacc' | hext'
            · rw [List.any_append] at hacc'
              simp only [Bool.or_eq_true] at hacc'
              rcases hacc' with h1 | h1
              · exact Or.inl h1
              · right
                simp only [List.any_cons, Bool.or_eq_true]
                left
                simpa using h1
            · right
              simp only [List.any_cons, Bool.or_eq_true]
              exact Or.inr hext'

theorem bucketGo_monthly : ∀ (lines : List String) (acc : List (String × String)),
    bucketGo (fun e => some (Monthly.monthKey e.2)) (parsedOf lines) acc =
      .ok (Monthly.list_monthly_go lines acc) := by
  intro lines
  induction lines with
  | nil => intro acc; rfl
  | cons l rest ih =>
    intro acc
    cases hp : parseShaAd l with
    | none =>
      have h1 : parsedOf (l :: rest) = parsedOf rest := by
        simp [parsedOf, List.filterMap_cons, hp]
      have h2 : Monthly.list_monthly_go (l :: rest) acc =
          Monthly.list_monthly_go rest acc := by
        simp [Monthly.list_monthly_go, hp]
      rw [h1, h2, ih]
    | some e =>
      obtain ⟨sha, ad⟩ := e
      have h1 : parsedOf (l :: rest) = (sha, ad) :: parsedOf rest := by
        simp [parsedOf, List.filterMap_cons, hp]
      rw [h1, bucketGo]
      by_cases hany : (acc.any (fun p => p.1 == Monthly.monthKey ad)) = true
      · have h2 : Monthly.list_monthly_go (l :: rest) acc =
            Monthly.list_monthly_go rest acc := by
          simp [Monthly.list_monthly_go, hp, hany]
        rw [h2]
        simpa [hany] using ih acc
      · have h2 : Monthly.list_monthly_go (l :: rest) acc =
            Monthly.list_monthly_go rest (acc ++ [(Monthly.monthKey ad, sha)]) := by
          simp [Monthly.list_monthly_go, hp, hany]
        rw [h2]
        simpa [hany] using ih (acc ++ [(Monthly.monthKey ad, sha)])

theorem bucketGo_weekly : ∀ (lines : List String) (acc : List (String × String)),
    bucketGo (fun e => Monthly.weekKeyOfAd e.2) (parsedOf lines) acc =
      Monthly.list_weekly_go lines acc := by
  intro lines
  induction lines with
  | nil => intro acc; rfl
  | cons l rest ih =>
    intro acc
    cases hp : parseShaAd l with
    | none =>
      have h1 : parsedOf (l :: rest) = parsedOf rest := by
        simp [parsedOf, List.filterMap_cons, hp]
      have h2 : Monthly.list_weekly_go (l :: rest) acc =
          Monthly.list_weekly_go rest acc := by
        simp [Monthly.list_weekly_go, hp]
      rw [h1, h2, ih]
    | some e =>
      obtain ⟨sha, ad⟩ := e
      have h1 : parsedOf (l :: rest) = (sha, ad) :: parsedOf rest := by
        simp [parsedOf, List.filterMap_cons, hp]
      rw [h1, bucketGo]
      cases hw : Monthly.weekKeyOfAd ad with
      | none =>
        simp [Monthly.list_weekly_go, hp, hw]
      | some key =>
        by_cases hany : (acc.any (fun p => p.1 == key)) = true
        · have h2 : Monthly.list_weekly_go (l :: rest) acc =
              Monthly.list_weekly_go rest acc := by
            simp [Monthly.list_weekly_go, hp, hw, hany]
          rw [h2]
          simpa [hw, hany] using ih acc
        · have h2 : Monthly.list_weekly_go (l :: rest) acc =
              Monthly.list_weekly_go rest (acc ++ [(key, sha)]) := by
            simp [Monthly.list_weekly_go, hp, hw, hany]
          rw [h2]
          simpa [hw, hany] using ih (acc ++ [(key, sha)])

/-- Claim C1: assuming the log lines are traversed in newest-first order of
authorship timestamp (any valuation `ts` of the date strings under which the
parsed lines are non-increasing), then for both samplers: every stored bucket
entry `(key, sha)` is a parsed commit of that bucket whose timestamp is
maximal among all parsed commits sharing the bucket key (first commit seen for
a fresh bucket wins), every bucket key occurring in the history has a stored
representative, and the returned list is the stored representatives in
first-seen order. -/
theorem c1_bucket_representative_max (lines : List String) (ts : String → Int)
    (hsorted : List.Pairwise (fun e e' => ts e.2 ≥ ts e'.2) (parsedOf lines)) :
    ((∀ key sha, (key, sha) ∈ Monthly.list_monthly_go lines [] →
        ∃ ad, (sha, ad) ∈ parsedOf lines ∧ Monthly.monthKey ad = key ∧
          ∀ e ∈ parsedOf lines, Monthly.monthKey e.2 = key → ts ad ≥ ts e.2) ∧
      (∀ e ∈ parsedOf lines,
        ∃ sha, (Monthly.monthKey e.2, sha) ∈ Monthly.list_monthly_go lines []) ∧
      Monthly.list_monthly_latest_commits lines =
        (Monthly.list_monthly_go lines []).map Prod.snd) ∧
    (∀ res, Monthly.list_weekly_go lines [] = .ok res →
      (∀ key sha, (key, sha) ∈ res →
        ∃ ad, (sha, ad) ∈ parsedOf lines ∧ Monthly.weekKeyOfAd ad = some key ∧
          ∀ e ∈ parsedOf lines, Monthly.weekKeyOfAd e.2 = some key → ts ad ≥ ts e.2) ∧
      (∀ e ∈ parsedOf lines, ∀ k, Monthly.weekKeyOfAd e.2 = some k →
        ∃ sha, (k, sha) ∈ res)) := by
  constructor
  · have hspec := bucketGo_ok_spec (fun e => some (Monthly.monthKey e.2)) ts
      (parsedOf lines) [] (Monthly.list_monthly_go lines [])
      hsorted (bucketGo_monthly lines [])
    obtain ⟨ext, hres, hext, hcov⟩ := hspec
    simp only [List.nil_append] at hres
    subst hres
    refine ⟨?_, ?_, rfl⟩
    · intro key sha hmem
      obtain ⟨-, e₀, he₀, hkey₀, hv₀, hmax₀⟩ := hext (key, sha) hmem
      obtain ⟨s₀, a₀⟩ := e₀
      dsimp only at hkey₀ hv₀ hmax₀
      injection hkey₀ with hkey₀
      subst hv₀
      refine ⟨a₀, he₀, hkey₀, ?_⟩
      intro e he hke
      refine hmax₀ e he ?_
      rw [hke]
    · intro e he
      rcases hcov e he (Monthly.monthKey e.2) rfl with habs | hhit
      · exact absurd habs (by simp)
      · exact anyKey_iff.mp hhit
  · intro res hres
    have hspec := bucketGo_ok_spec (fun e => Monthly.weekKeyOfAd e.2) ts
      (parsedOf lines) [] res hsorted (by rw [bucketGo_weekly]; exact hres)
    obtain ⟨ext, hres', hext, hcov⟩ := hspec
    simp only [List.nil_append] at hres'
    subst hres'
    refine ⟨?_, ?_⟩
    · intro key sha hmem
      obtain ⟨-, e₀, he₀, hkey₀, hv₀, hmax₀⟩ := hext (key, sha) hmem
      obtain ⟨s₀, a₀⟩ := e₀
      dsimp only at hkey₀ hv₀ hmax₀
      subst hv₀
      refine ⟨a₀, he₀, hkey₀, ?_⟩
      intro e he hke
      exact hmax₀ e he hke
    · intro e he k hk
      rcases hcov e he k hk with habs | hhit
      · exact absurd habs (by simp)
      · exact anyKey_iff.mp hhit

/-- Witness for C1 at a concrete three-commit history sorted newest-first:
the representative of month `2024-05` is commit `a`, whose timestamp is
maximal in that month. -/
theorem c1_bucket_representative_max_witness :
    ∃ ad, ("a", ad) ∈ parsedOf
        ["a|2024-05-10", "b|2024-05-03", "c|2024-04-20"] ∧
      Monthly.monthKey ad = "2024-05" ∧
      ∀ e ∈ parsedOf ["a|2024-05-10", "b|2024-05-03", "c|2024-04-20"],
        Monthly.monthKey e.2 = "2024-05" →
          (fun ad => match strptimeYMD (String.mk (ad.data.take 10)) with
            | some (y, m, d) => (y * 10000 + m * 100 + d : Int)
            | none => 0) ad ≥
          (fun ad => match strptimeYMD (String.mk (ad.data.take 10)) with
            | some (y, m, d) => (y * 10000 + m * 100 + d : Int)
            | none => 0) e.2 :=
  ((c1_bucket_representative_max
      ["a|2024-05-10", "b|2024-05-03", "c|2024-04-20"]
      (fun ad => match strptimeYMD (String.mk (ad.data.take 10)) with
        | some (y, m, d) => (y * 10000 + m * 100 + d : Int)
        | none => 0)
      (by decide)).1.1 "2024-05" "a" (by decide))

/-- Claim C6, counterexample: a commit line whose timestamp fails both the
ISO parse and the 10-character fallback parse does not get excluded with a
normal return — `list_weekly_latest_commits` raises (the `strptime` call is
outside the `try`), modelled as `Except.error`. -/
theorem c6_counterexample :
    Monthly.list_weekly_latest_commits ["a|b"] = .error () := rfl

theorem weekly_go_error_iff : ∀ (lines : List String) (acc : List (String × String)),
    (∃ err, Monthly.list_weekly_go lines acc = .error err) ↔
      ∃ l ∈ lines, ∃ sha ad, parseShaAd l = some (sha, ad) ∧
        Monthly.weekKeyOfAd ad = none := by
  intro lines
  induction lines with
  | nil => intro acc; simp [Monthly.list_weekly_go]
  | cons l rest ih =>
    intro acc
    cases hp : parseShaAd l with
    | none =>
      have h2 : Monthly.list_weekly_go (l :: rest) acc =
          Monthly.list_weekly_go rest acc := by
        simp [Monthly.list_weekly_go, hp]
      rw [h2, ih acc]
      constructor
      · rintro ⟨l', hl', w⟩
        exact ⟨l', List.mem_cons_of_mem _ hl', w⟩
      · rintro ⟨l', hl', sha, ad, hpar, hwk⟩
        rcases List.mem_cons.mp hl' with rfl | hmem
        · rw [hp] at hpar
          exact absurd hpar (by simp)
        · exact ⟨l', hmem, sha, ad, hpar, hwk⟩
    | some e =>
      obtain ⟨sha, ad⟩ := e
      cases hw : Monthly.weekKeyOfAd ad with
      | none =>
        have h2 : Monthly.list_weekly_go (l :: rest) acc = .error () := by
          simp [Monthly.list_weekly_go, hp, hw]
        rw [h2]
        constructor
        · intro _
          exact ⟨l, List.mem_cons_self _ _, sha, ad, hp, hw⟩
        · intro _
          exact ⟨(), rfl⟩
      | some key =>
        have hiff : ∀ acc', (∃ err, Monthly.list_weekly_go rest acc' = .error err) ↔
            ∃ l' ∈ l :: rest, ∃ sha' ad', parseShaAd l' = some (sha', ad') ∧
              Monthly.weekKeyOfAd ad' = none := by
          intro acc'
          rw [ih acc']
          constructor
          · rintro ⟨l', hl', w⟩
            exact ⟨l', List.mem_cons_of_mem _ hl', w⟩
          · rintro ⟨l', hl', sha', ad', hpar, hwk⟩
            rcases List.mem_cons.mp hl' with rfl | hmem
            · rw [hp] at hpar
              injection hpar with hpar
              obtain ⟨h1, h2⟩ := Prod.mk.injEq .. ▸ hpar
              injection hpar with ha hb
              rw [← hb] at hwk
              rw [hw] at hwk
              exact absurd hwk (by simp)
            · exact ⟨l', hmem, sha', ad', hpar, hwk⟩
        by_cases hany : (acc.any (fun p => p.1 == key)) = true
        · have h2 : Monthly.list_weekly_go (l :: rest) acc =
              Monthly.list_weekly_go rest acc := by
            simp [Monthly.list_weekly_go, hp, hw, hany]
          rw [h2]
          exact hiff acc
        · have h2 : Monthly.list_weekly_go (l :: rest) acc =
              Monthly.list_weekly_go rest (acc ++ [(key, sha)]) := by
            simp [Monthly.list_weekly_go, hp, hw, hany]
          rw [h2]
          exact hiff (acc ++ [(key, sha)])

/-- Claim C6, amended: for a line whose authorship timestamp fails the
ISO-8601 parse, the sampler falls back to parsing the first 10 characters as
`YYYY-MM-DD`; but if that fallback parse also fails, the sampler does NOT
exclude the commit and return normally — the whole sampling call raises
(returns an error) exactly when some parsed line fails both parses. -/
theorem c6_amended :
    (∀ lines : List String,
      (∃ err, Monthly.list_weekly_latest_commits lines = .error err) ↔
        ∃ l ∈ lines, ∃ sha ad, parseShaAd l = some (sha, ad) ∧
          Monthly.weekKeyOfAd ad = none) ∧
    (∀ (ad : String) (y m d : Nat),
      fromisoformat (String.mk (Monthly.replaceZ ad.data)) = none →
      strptimeYMD (String.mk (ad.data.take 10)) = some (y, m, d) →
      Monthly.weekKeyOfAd ad = some (isoWeekKey y m d)) := by
  constructor
  · intro lines
    rw [← weekly_go_error_iff lines []]
    unfold Monthly.list_weekly_latest_commits
    cases h : Monthly.list_weekly_go lines [] with
    | ok v => simp [Except.map, h]
    | error e => simp [Except.map, h]
  · intro ad y m d hiso hstr
    unfold Monthly.weekKeyOfAd
    rw [hiso, hstr]

/-- Witness for C6 (amended): `"2024-05-10 oops"` fails the strict ISO parse
but its 10-character date prefix parses, so the fallback assigns week
`2024-W19`; and the history `["a|b"]`, whose only timestamp fails both
parses, makes the sampler return an error. -/
theorem c6_amended_witness :
    Monthly.weekKeyOfAd "2024-05-10 oops" = some (isoWeekKey 2024 5 10) ∧
    (∃ err, Monthly.list_weekly_latest_commits ["a|b"] = .error err) :=
  ⟨(c6_amended.2 "2024-05-10 oops" 2024 5 10 (by decide) (by decide)),
   (c6_amended.1 ["a|b"]).mpr
     ⟨"a|b", List.mem_singleton_self _, "a", "b", by decide, by decide⟩⟩

/-! ## Claim C7: decode resilience

`run` in `extractor_monthly.py` decodes subprocess output with
`(res.stdout or b"").decode("utf-8", "replace")`: it never raises and
substitutes U+FFFD for each maximal invalid subpart.  `utf8DecodeChars`
embeds that decoder (WHATWG/CPython maximal-subpart semantics). -/

def fffd : Char := '�'

/-- One UTF-8 decoding step of CPython's `bytes.decode("utf-8", "replace")`:
decode one scalar, or replace the maximal invalid subpart at the head with a
single U+FFFD.  Returns the produced character and the remaining bytes. -/
def utf8Step (b : Nat) (rest : List Nat) : Char × List Nat :=
  if b < 0x80 then (Char.ofNat b, rest)
  else if b < 0xC2 then (fffd, rest)
  else if b < 0xE0 then
    match rest with
    | [] => (fffd, [])
    | b2 :: rest2 =>
      if 0x80 ≤ b2 ∧ b2 < 0xC0 then
        (Char.ofNat ((b - 0xC0) * 0x40 + (b2 - 0x80)), rest2)
      else (fffd, rest)
  else if b < 0xF0 then
    match rest with
    | [] => (fffd, [])
    | b2 :: rest2 =>
      if (if b = 0xE0 then 0xA0 else 0x80) ≤ b2 ∧
          b2 < (if b = 0xED then 0xA0 else 0xC0) then
        match rest2 with
        | [] => (fffd, [])
        | b3 :: rest3 =>
          if 0x80 ≤ b3 ∧ b3 < 0xC0 then
            (Char.ofNat ((b - 0xE0) * 0x1000 + (b2 - 0x80) * 0x40 + (b3 - 0x80)),
             rest3)
          else (fffd, rest2)
      else (fffd, rest)
  else if b < 0xF5 then
    match rest with
    | [] => (fffd, [])
    | b2 :: rest2 =>
      if (if b = 0xF0 then 0x90 else 0x80) ≤ b2 ∧
          b2 < (if b = 0xF4 then 0x90 else 0xC0) then
        match rest2 with
        | [] => (fffd, [])
        | b3 :: rest3 =>
          if 0x80 ≤ b3 ∧ b3 < 0xC0 then
            match rest3 with
            | [] => (fffd, [])
            | b4 :: rest4 =>
              if 0x80 ≤ b4 ∧ b4 < 0xC0 then
                (Char.ofNat ((b - 0xF0) * 0x40000 + (b2 - 0x80) * 0x1000 +
                    (b3 - 0x80) * 0x40 + (b4 - 0x80)), rest4)
              else (fffd, rest3)
          else (fffd, rest2)
      else (fffd, rest)
  else (fffd, rest)

/-- Decoding loop; each step consumes at least one byte, so `fuel = length`
suffices (structural fuel keeps the definition kernel-computable). -/
def utf8DecodeGo : Nat → List Nat → List Char
  | 0, _ => []
  | _ + 1, [] => []
  | fuel + 1, b :: rest =>
    (utf8Step b rest).1 :: utf8DecodeGo fuel (utf8Step b rest).2

def utf8DecodeChars (stdout : List Nat) : List Char :=
  utf8DecodeGo stdout.length stdout

/-- The decode step of `run`: total — decoding never raises. -/
def utf8DecodeReplace (stdout : List Nat) : String :=
  String.mk (utf8DecodeChars stdout)

/-- The UTF-8 bytes of an ASCII string. -/
def asciiBytes (s : String) : List Nat := s.data.map Char.toNat

example : utf8DecodeChars [0x41, 0x42] = ['A', 'B'] := by decide
example : utf8DecodeChars [0xC3, 0xA9] = ['é'] := by decide
example : utf8DecodeChars [0xE2, 0x82, 0xAC] = ['€'] := by decide
example : utf8DecodeChars [0xE2, 0x82, 0x41] = [fffd, 'A'] := by decide
example : utf8DecodeChars [0x80, 0xFF, 0x41] = [fffd, fffd, 'A'] := by decide

theorem utf8DecodeGo_ascii : ∀ (cs : List Char) (fuel : Nat), cs.length ≤ fuel →
    (∀ c ∈ cs, c.toNat < 0x80) → utf8DecodeGo fuel (cs.map Char.toNat) = cs
  | [], fuel, _, _ => by cases fuel <;> rfl
  | c :: cs, fuel, hfuel, h => by
    cases fuel with
    | zero => exact absurd hfuel (by simp)
    | succ f =>
      have hc : c.toNat < 0x80 := h c (List.mem_cons_self _ _)
      have hstep : utf8Step c.toNat (cs.map Char.toNat) =
          (Char.ofNat c.toNat, cs.map Char.toNat) := by
        unfold utf8Step
        rw [if_pos hc]
      show (utf8Step c.toNat (cs.map Char.toNat)).1 ::
        utf8DecodeGo f (utf8Step c.toNat (cs.map Char.toNat)).2 = c :: cs
      rw [hstep]
      rw [utf8DecodeGo_ascii cs f (Nat.le_of_succ_le_succ hfuel)
        (fun c' hc' => h c' (List.mem_cons_of_mem _ hc'))]
      simp [Char.ofNat_toNat]

theorem utf8DecodeGo_junk : ∀ (junk : List Nat),
    (∀ b ∈ junk, 0x80 ≤ b ∧ b < 0xC0) →
    ∀ (bs : List Nat) (fuel : Nat), junk.length ≤ fuel →
      utf8DecodeGo fuel (junk ++ bs) =
        List.replicate junk.length fffd ++ utf8DecodeGo (fuel - junk.length) bs
  | [], _, bs, fuel, _ => by simp
  | b :: junk, h, bs, fuel, hfuel => by
    cases fuel with
    | zero => exact absurd hfuel (by simp)
    | succ f =>
      have hb := h b (List.mem_cons_self _ _)
      have h1 : ¬ b < 0x80 := by omega
      have h2 : b < 0xC2 := by omega
      have hstep : utf8Step b (junk ++ bs) = (fffd, junk ++ bs) := by
        unfold utf8Step
        rw [if_neg h1, if_pos h2]
      show (utf8Step b (junk ++ bs)).1 ::
        utf8DecodeGo f (utf8Step b (junk ++ bs)).2 = _
      rw [hstep]
      rw [utf8DecodeGo_junk junk (fun b' hb' => h b' (List.mem_cons_of_mem _ hb')) bs f
        (Nat.le_of_succ_le_succ hfuel)]
      simp [List.replicate_succ, Nat.succ_sub_succ]

theorem utf8Decode_junk_ascii (junk : List Nat)
    (hjunk : ∀ b ∈ junk, 0x80 ≤ b ∧ b < 0xC0)
    (t : String) (hascii : ∀ c ∈ t.data, c.toNat < 0x80) :
    utf8DecodeChars (junk ++ asciiBytes t) =
      List.replicate junk.length fffd ++ t.data := by
  unfold utf8DecodeChars asciiBytes
  rw [utf8DecodeGo_junk junk hjunk _ _ (by simp)]
  congr 1
  have hlen : (junk ++ t.data.map Char.toNat).length - junk.length =
      t.data.length := by simp
  rw [hlen]
  exact utf8DecodeGo_ascii t.data _ (le_refl _) hascii

/-! ### The TS pattern skips characters other than `i` -/

theorem reM_ch_ne {a c : Char} (hne : c ≠ a) :
    ∀ (fuel : Nat) (rest : List Char) (prev : Option Char) (caps : Caps)
      (k : List Char → Option Char → Caps → MRes),
      reM fuel (.ch a) (c :: rest) prev caps k = none := by
  intro fuel rest prev caps k
  cases fuel with
  | zero => rfl
  | succ f =>
    show (if c = a then k rest (some c) caps else none) = none
    rw [if_neg hne]

theorem reM_cat_fail {a b : RE} {s : List Char} {prev : Option Char} {caps : Caps}
    (hfail : ∀ (fuel : Nat) (k : List Char → Option Char → Caps → MRes),
      reM fuel a s prev caps k = none) :
    ∀ (fuel : Nat) (k : List Char → Option Char → Caps → MRes),
      reM fuel (.cat a b) s prev caps k = none := by
  intro fuel k
  cases fuel with
  | zero => rfl
  | succ f => exact hfail f _

theorem reM_alt_fail {a b : RE} {s : List Char} {prev : Option Char} {caps : Caps}
    (ha : ∀ fuel k, reM fuel a s prev caps k = none)
    (hb : ∀ fuel k, reM fuel b s prev caps k = none) :
    ∀ (fuel : Nat) (k : List Char → Option Char → Caps → MRes),
      reM fuel (.alt a b) s prev caps k = none := by
  intro fuel k
  cases fuel with
  | zero => rfl
  | succ f =>
    show firstSome (reM f a s prev caps k) (fun _ => reM f b s prev caps k) = none
    rw [ha f k]
    exact hb f k

theorem ts_re_head_fail {c : Char} (hne : c ≠ 'i') (rest : List Char)
    (prev : Option Char) :
    ∀ fuel k, reM fuel Monthly.ts_import_re (c :: rest) prev [] k = none := by
  have hch : ∀ fuel k, reM fuel (.ch 'i') (c :: rest) prev ([] : Caps) k = none :=
    fun fuel k => reM_ch_ne hne fuel rest prev [] k
  have h1 : ∀ (tl : RE) fuel k,
      reM fuel (.cat (.ch 'i') tl) (c :: rest) prev ([] : Caps) k = none :=
    fun tl => reM_cat_fail (fun fuel k => hch fuel k)
  have h2 : ∀ (m tl : RE) fuel k,
      reM fuel (.cat (.cat (.ch 'i') m) tl) (c :: rest) prev ([] : Caps) k = none :=
    fun m tl => reM_cat_fail (fun fuel k => h1 m fuel k)
  exact reM_alt_fail (h2 _ _) (h2 _ _)

theorem reTry_ts_head_fail {c : Char} (hne : c ≠ 'i') (rest : List Char)
    (prev : Option Char) : reTry Monthly.ts_import_re (c :: rest) prev = none :=
  ts_re_head_fail hne rest prev _ _

theorem scanAux_skip {r : RE} {c : Char} {rest : List Char} {prev : Option Char}
    {acc : List Caps} {fuel : Nat} (h : reTry r (c :: rest) prev = none) :
    scanAux r (fuel + 1) (c :: rest) prev acc = scanAux r fuel rest (some c) acc := by
  show (match reTry r (c :: rest) prev with
    | some (caps, s', p') =>
      if s'.length < (c :: rest).length then scanAux r fuel s' p' (caps :: acc)
      else
        match c :: rest with
        | [] => (caps :: acc).reverse
        | c :: tl => scanAux r fuel tl (some c) (caps :: acc)
    | none =>
      match c :: rest with
      | [] => acc.reverse
      | c :: tl => scanAux r fuel tl (some c) acc) = scanAux r fuel rest (some c) acc
  rw [h]

/-! ### Matching of anchor-free patterns does not depend on `prev` -/

/-- `true` when the pattern contains no `^` anchor. -/
def noBol : RE → Bool
  | .bol => false
  | .cat a b => noBol a && noBol b
  | .alt a b => noBol a && noBol b
  | .star r _ => noBol r
  | .grp _ r => noBol r
  | _ => true

/-- Relation between the prev-markers of two runs started with markers `p`
and `p'` at position `s₀`: either the runs have consumed a character (equal
markers), or nothing was consumed yet and each marker is the original. -/
def PRel (p p' : Option Char) (s₀ : List Char) (s : List Char)
    (q q' : Option Char) : Prop :=
  q = q' ∨ (q = p ∧ q' = p' ∧ s = s₀)

/-- Relation between the results of two runs. -/
def MRel (p p' : Option Char) (s₀ : List Char) : MRes → MRes → Prop
  | none, none => True
  | some (caps, rest, q), some (caps', rest', q') =>
      caps = caps' ∧ rest = rest' ∧ PRel p p' s₀ rest q q'
  | _, _ => False

theorem MRel_firstSome {p p' : Option Char} {s₀ : List Char} {o₁ o₂ e₁ e₂ : MRes}
    (ho : MRel p p' s₀ o₁ o₂) (hb : MRel p p' s₀ e₁ e₂) :
    MRel p p' s₀ (firstSome o₁ (fun _ => e₁)) (firstSome o₂ (fun _ => e₂)) := by
  cases o₁ with
  | none =>
    cases o₂ with
    | none => exact hb
    | some r2 => exact ho.elim
  | some r1 =>
    cases o₂ with
    | none => exact ho.elim
    | some r2 => exact ho

theorem reM_noBol_rel (p p' : Option Char) (s₀ : List Char) :
    ∀ (fuel : Nat) (r : RE), noBol r = true →
    ∀ (s : List Char) (caps : Caps) (q q' : Option Char)
      (k k' : List Char → Option Char → Caps → MRes),
      PRel p p' s₀ s q q' →
      (∀ s₂ caps₂ t t', PRel p p' s₀ s₂ t t' →
        MRel p p' s₀ (k s₂ t caps₂) (k' s₂ t' caps₂)) →
      MRel p p' s₀ (reM fuel r s q caps k) (reM fuel r s q' caps k') := by
  intro fuel
  induction fuel with
  | zero => intro r _ s caps q q' k k' _ _; trivial
  | succ f ih =>
    intro r hr s caps q q' k k' hq hk
    cases r with
    | eps => exact hk s caps q q' hq
    | ch c =>
      cases s with
      | nil => trivial
      | cons c' s' =>
        show MRel p p' s₀ (if c' = c then k s' (some c') caps else none)
          (if c' = c then k' s' (some c') caps else none)
        by_cases hc : c' = c
        · rw [if_pos hc, if_pos hc]
          exact hk s' caps (some c') (some c') (Or.inl rfl)
        · rw [if_neg hc, if_neg hc]
          trivial
    | cls pcls =>
      cases s with
      | nil => trivial
      | cons c' s' =>
        show MRel p p' s₀ (if pcls c' then k s' (some c') caps else none)
          (if pcls c' then k' s' (some c') caps else none)
        by_cases hc : pcls c' = true
        · rw [if_pos hc, if_pos hc]
          exact hk s' caps (some c') (some c') (Or.inl rfl)
        · rw [if_neg hc, if_neg hc]
          trivial
    | cat a b =>
      simp only [noBol, Bool.and_eq_true] at hr
      exact ih a hr.1 s caps q q' _ _ hq
        (fun s₂ caps₂ t t' ht => ih b hr.2 s₂ caps₂ t t' k k' ht hk)
    | alt a b =>
      simp only [noBol, Bool.and_eq_true] at hr
      exact MRel_firstSome (ih a hr.1 s caps q q' k k' hq hk)
        (ih b hr.2 s caps q q' k k' hq hk)
    | grp n a =>
      simp only [noBol] at hr
      exact ih a hr s caps q q' _ _ hq
        (fun s₂ caps₂ t t' ht => hk s₂ _ t t' ht)
    | bol => simp [noBol] at hr
    | eol =>
      cases s with
      | nil => exact hk [] caps q q' hq
      | cons c' s' =>
        show MRel p p' s₀ (if c' = '\n' then k (c' :: s') q caps else none)
          (if c' = '\n' then k' (c' :: s') q' caps else none)
        by_cases hc : c' = '\n'
        · rw [if_pos hc, if_pos hc]
          exact hk (c' :: s') caps q q' hq
        · rw [if_neg hc, if_neg hc]
          trivial
    | star a lz =>
      simp only [noBol] at hr
      have hbody : MRel p p' s₀
          (reM f a s q caps (fun s' t caps' =>
            if s'.length < s.length then reM f (.star a lz) s' t caps' k
            else k s' t caps'))
          (reM f a s q' caps (fun s' t caps' =>
            if s'.length < s.length then reM f (.star a lz) s' t caps' k'
            else k' s' t caps')) := by
        refine ih a hr s caps q q' _ _ hq (fun s₂ caps₂ t t' ht => ?_)
        by_cases hlen : s₂.length < s.length
        · rw [if_pos hlen, if_pos hlen]
          exact ih (.star a lz) hr s₂ caps₂ t t' k k' ht hk
        · rw [if_neg hlen, if_neg hlen]
          exact hk s₂ caps₂ t t' ht
      cases lz with
      | true => exact MRel_firstSome (hk s caps q q' hq) hbody
      | false => exact MRel_firstSome hbody (hk s caps q q' hq)

theorem reTry_noBol_rel {r : RE} (hr : noBol r = true) (s : List Char)
    (q q' : Option Char) : MRel q q' s (reTry r s q) (reTry r s q') := by
  unfold reTry
  exact reM_noBol_rel q q' s (bigFuel s) r hr s [] q q' _ _
    (Or.inr ⟨rfl, rfl, rfl⟩)
    (fun s₂ caps₂ t t' ht => ⟨rfl, rfl, ht⟩)

theorem scanAux_prev_irrel {r : RE} (hr : noBol r = true) :
    ∀ (fuel : Nat) (s : List Char) (q q' : Option Char) (acc : List Caps),
      scanAux r fuel s q acc = scanAux r fuel s q' acc := by
  intro fuel
  induction fuel with
  | zero => intro s q q' acc; rfl
  | succ f ih =>
    intro s q q' acc
    have hrel := reTry_noBol_rel hr s q q'
    cases h1 : reTry r s q with
    | none =>
      cases h2 : reTry r s q' with
      | none => simp only [scanAux, h1, h2]
      | some res2 =>
        rw [h1, h2] at hrel
        exact hrel.elim
    | some res1 =>
      cases h2 : reTry r s q' with
      | none =>
        rw [h1, h2] at hrel
        exact hrel.elim
      | some res2 =>
        rw [h1, h2] at hrel
        obtain ⟨caps1, rest1, t1⟩ := res1
        obtain ⟨caps2, rest2, t2⟩ := res2
        obtain ⟨hc, hrest, hpr⟩ := hrel
        subst hc
        subst hrest
        simp only [scanAux, h1, h2]
        by_cases hlen : rest1.length < s.length
        · rw [if_pos hlen, if_pos hlen]
          have ht : t1 = t2 := by
            rcases hpr with h | ⟨-, -, h3⟩
            · exact h
            · subst h3
              exact absurd hlen (lt_irrefl _)
          rw [ht]
        · rw [if_neg hlen, if_neg hlen]

theorem ts_noBol : noBol Monthly.ts_import_re = true := by decide

theorem scanAux_skip_fffd :
    ∀ (n : Nat) (l : List Char) (prev : Option Char) (acc : List Caps),
      scanAux Monthly.ts_import_re (n + (l.length + 1))
          (List.replicate n fffd ++ l) prev acc =
        scanAux Monthly.ts_import_re (l.length + 1) l none acc := by
  intro n
  induction n with
  | zero =>
    intro l prev acc
    simpa using scanAux_prev_irrel ts_noBol (l.length + 1) l prev none acc
  | succ n ih =>
    intro l prev acc
    have hskip : reTry Monthly.ts_import_re
        (fffd :: (List.replicate n fffd ++ l)) prev = none :=
      reTry_ts_head_fail (by decide) _ _
    rw [List.replicate_succ, List.cons_append, Nat.succ_add]
    rw [scanAux_skip hskip]
    exact ih l (some fffd) acc

theorem extract_ts_fffd_prefix (n : Nat) :
    Monthly.extract_typescript_imports
        (String.mk (List.replicate n fffd ++ tsFixture.data)) =
      Monthly.extract_typescript_imports tsFixture := by
  unfold Monthly.extract_typescript_imports
  congr 1
  show scanAux Monthly.ts_import_re
      ((List.replicate n fffd ++ tsFixture.data).length + 1)
      (List.replicate n fffd ++ tsFixture.data) none [] =
    scanAux Monthly.ts_import_re (tsFixture.data.length + 1) tsFixture.data none []
  have hlen : (List.replicate n fffd ++ tsFixture.data).length =
      n + tsFixture.data.length := by simp
  rw [hlen, Nat.add_assoc]
  exact scanAux_skip_fffd n tsFixture.data none []

/-- One strict UTF-8 decoding step, CPython's `errors="strict"` mode (what
`subprocess.run(..., text=True)` uses): decode one scalar, or fail — a
`UnicodeDecodeError` — on an invalid head.  Validity conditions (continuation
ranges, overlong/surrogate/out-of-range exclusions) are those of `utf8Step`.
-/
def utf8StrictStep (b : Nat) (rest : List Nat) : Option (Char × List Nat) :=
  if b < 0x80 then some (Char.ofNat b, rest)
  else if b < 0xC2 then none
  else if b < 0xE0 then
    match rest with
    | [] => none
    | b2 :: rest2 =>
      if 0x80 ≤ b2 ∧ b2 < 0xC0 then
        some (Char.ofNat ((b - 0xC0) * 0x40 + (b2 - 0x80)), rest2)
      else none
  else if b < 0xF0 then
    match rest with
    | [] => none
    | b2 :: rest2 =>
      if (if b = 0xE0 then 0xA0 else 0x80) ≤ b2 ∧
          b2 < (if b = 0xED then 0xA0 else 0xC0) then
        match rest2 with
        | [] => none
        | b3 :: rest3 =>
          if 0x80 ≤ b3 ∧ b3 < 0xC0 then
            some (Char.ofNat ((b - 0xE0) * 0x1000 + (b2 - 0x80) * 0x40 +
              (b3 - 0x80)), rest3)
          else none
      else none
  else if b < 0xF5 then
    match rest with
    | [] => none
    | b2 :: rest2 =>
      if (if b = 0xF0 then 0x90 else 0x80) ≤ b2 ∧
          b2 < (if b = 0xF4 then 0x90 else 0xC0) then
        match rest2 with
        | [] => none
        | b3 :: rest3 =>
          if 0x80 ≤ b3 ∧ b3 < 0xC0 then
            match rest3 with
            | [] => none
            | b4 :: rest4 =>
              if 0x80 ≤ b4 ∧ b4 < 0xC0 then
                some (Char.ofNat ((b - 0xF0) * 0x40000 +
                  (b2 - 0x80) * 0x1000 + (b3 - 0x80) * 0x40 + (b4 - 0x80)),
                  rest4)
              else none
          else none
      else none
  else none

/-- Strict decoding loop; each step consumes at least one byte, so fuel equal
to the byte count always suffices. -/
def utf8StrictGo : Nat → List Nat → Option (List Char)
  | _, [] => some []
  | 0, _ :: _ => none
  | fuel + 1, b :: rest =>
    match utf8StrictStep b rest with
    | none => none
    | some (c, rest2) => (utf8StrictGo fuel rest2).map (fun cs => c :: cs)

/-- The decode `get_file_content_at_commit` of `extractor_trilingual.py`
performs via `subprocess.run(..., text=True)`: strict — `none` models the
`UnicodeDecodeError` it raises on invalid bytes (only `CalledProcessError`
is caught there, so the accessor yields no text and `analyze_commit`'s
catch-all skips the file). -/
def utf8DecodeStrict (stdout : List Nat) : Option String :=
  (utf8StrictGo stdout.length stdout).map String.mk

example : utf8DecodeStrict (asciiBytes "import b") = some "import b" := by decide
example : utf8DecodeStrict [0xC3, 0xA9] = some "é" := by decide

/-- Claim C7, counterexample: the cited accessor
`get_file_content_at_commit` of `extractor_trilingual.py` decodes with
`text=True`, i.e. strictly.  On content ending in an invalid byte the decode
raises `UnicodeDecodeError` instead of substituting U+FFFD — no text is
returned and no extraction happens — while the `replace` decoder of `run` in
`extractor_monthly.py` on the same bytes returns the text with U+FFFD and
extraction still finds the import.  So "decoding never raises" is false for
this cited implementation. -/
theorem c7_counterexample :
    utf8DecodeStrict (asciiBytes "import b from \"pkg2\"\n" ++ [0x80]) =
      none ∧
    utf8DecodeReplace (asciiBytes "import b from \"pkg2\"\n" ++ [0x80]) =
      String.mk ("import b from \"pkg2\"\n".data ++ [fffd]) ∧
    Monthly.extract_typescript_imports
        (utf8DecodeReplace (asciiBytes "import b from \"pkg2\"\n" ++ [0x80])) =
      ["pkg2"] := by
  refine ⟨by decide, by decide, by decide⟩

/-- Claim C7, amended (the half that holds, for `run` of
`extractor_monthly.py`): its decoding (`stdout.decode("utf-8", "replace")`)
is a total function — it never raises; a prefix of invalid bytes (stray
continuation bytes) is replaced by one U+FFFD each; and import extraction on
the decoded text still returns the specifiers of the valid-ASCII
import-statements that follow, exactly `{"pkg1","pkg2"}` for the fixture's
two import-statements.  The strict `text=True` decode of
`get_file_content_at_commit` in `extractor_trilingual.py` instead raises on
such content — see the counterexample above. -/
theorem c7_decode_resilience (junk : List Nat)
    (hjunk : ∀ b ∈ junk, 0x80 ≤ b ∧ b < 0xC0) :
    utf8DecodeReplace (junk ++ asciiBytes tsFixture) =
      String.mk (List.replicate junk.length fffd ++ tsFixture.data) ∧
    Monthly.extract_typescript_imports
        (utf8DecodeReplace (junk ++ asciiBytes tsFixture)) = ["pkg1", "pkg2"] := by
  have hdec : utf8DecodeChars (junk ++ asciiBytes tsFixture) =
      List.replicate junk.length fffd ++ tsFixture.data :=
    utf8Decode_junk_ascii junk hjunk tsFixture (by decide)
  constructor
  · unfold utf8DecodeReplace
    rw [hdec]
  · unfold utf8DecodeReplace
    rw [hdec, extract_ts_fffd_prefix junk.length]
    decide

/-- Witness for C7 at the concrete invalid byte sequence `[0x80, 0xBF]`. -/
theorem c7_decode_resilience_witness :
    utf8DecodeReplace ([0x80, 0xBF] ++ asciiBytes tsFixture) =
      String.mk (List.replicate 2 fffd ++ tsFixture.data) ∧
    Monthly.extract_typescript_imports
        (utf8DecodeReplace ([0x80, 0xBF] ++ asciiBytes tsFixture)) =
      ["pkg1", "pkg2"] :=
  c7_decode_resilience [0x80, 0xBF] (by decide)

/-! ## gh_trilingual_combined.py: batch retrieval vs single-commit fallback

The batch path issues three bulk `git log` queries and parses the interleaved
multi-commit output by 40-hex section headers (`get_all_commit_data`); when a
commit is missing from the parsed batch, `main` falls back to the per-commit
queries `commit_header` + `parse_name_status` + `parse_numstat`.  All
functions below consume the raw output lines of those git commands. -/

namespace Combined

/-- Python's `line.split(sep)` for a one-character separator. -/
def splitOnChar (sep : Char) : List Char → List (List Char)
  | [] => [[]]
  | c :: rest =>
    if c = sep then [] :: splitOnChar sep rest
    else
      match splitOnChar sep rest with
      | [] => [[c]]
      | h :: t => (c :: h) :: t

def pySplitCh (s : String) (sep : Char) : List String :=
  (splitOnChar sep s.data).map String.mk

/-- Python's `line.split(sep, n)` for a one-character separator. -/
def splitFirstN (sep : Char) : Nat → List Char → List (List Char)
  | 0, cs => [cs]
  | n + 1, cs =>
    match splitFirstOn sep cs with
    | none => [cs]
    | some (a, b) => a :: splitFirstN sep n b

def pySplitLimit (s : String) (sep : Char) (n : Nat) : List String :=
  (splitFirstN sep n s.data).map String.mk

def pyStrip (s : String) : String := String.mk (pyStripChars s.data)

/-- `int(x) if x.isdigit() else 0`. -/
def digitsToNat (cs : List Char) : Nat :=
  cs.foldl (fun acc c => acc * 10 + (c.toNat - 48)) 0

def pyCount (s : String) : Nat :=
  if s.data ≠ [] ∧ s.data.all Char.isDigit then digitsToNat s.data else 0

/-- `len(line) == 40 and all(c in '0123456789abcdef' for c in line.lower())`. -/
def isShaLine (l : String) : Bool :=
  l.data.length == 40 &&
    (l.data.map Char.toLower).all (fun c => ("0123456789abcdef".data).contains c)

/-- One element of a `changed_files` list. -/
structure FileEntry where
  filename : String
  status : String
  additions : Nat
  deletions : Nat
  changes : Nat
deriving DecidableEq

/-- The per-commit record assembled by both retrieval paths. -/
structure CommitData where
  author_name : String
  author_email : String
  author_date : String
  subject : String
  changed_files : List FileEntry
  total_adds : Nat
  total_dels : Nat
deriving DecidableEq

/-! Python `dict`s as insertion-ordered association lists with unique keys:
lookup finds the entry, assignment to an existing key replaces its value in
place, assignment to a fresh key appends. -/

def dictGet? : List (String × α) → String → Option α
  | [], _ => none
  | p :: t, k => if p.1 == k then some p.2 else dictGet? t k

def dictMem (l : List (String × α)) (k : String) : Bool :=
  (dictGet? l k).isSome

def dictGetD (l : List (String × α)) (k : String) (d : α) : α :=
  (dictGet? l k).getD d

def dictInsert : List (String × α) → String → α → List (String × α)
  | [], k, v => [(k, v)]
  | p :: t, k, v => if p.1 == k then (p.1, v) :: t else p :: dictInsert t k v

/-- `d[k] = f(d[k])` for a key known to be present (no-op otherwise). -/
def dictModify : List (String × α) → String → (α → α) → List (String × α)
  | [], _, _ => []
  | p :: t, k, f =>
    if p.1 == k then (p.1, f p.2) :: dictModify t k f
    else p :: dictModify t k f

/-- One line of `parse_numstat`'s loop over `git show --numstat` output. -/
def numstatLineStep (acc : Nat × Nat × List (String × (Nat × Nat)))
    (line : String) : Nat × Nat × List (String × (Nat × Nat)) :=
  match pySplitCh line '\t' with
  | [adds, dels, fname] =>
    let a := pyCount adds
    let d := pyCount dels
    (acc.1 + a, acc.2.1 + d, dictInsert acc.2.2 fname (a, d))
  | _ => acc

/-- `parse_numstat`: total additions, total deletions, per-file map. -/
def parse_numstat (lines : List String) : Nat × Nat × List (String × (Nat × Nat)) :=
  lines.foldl numstatLineStep (0, 0, [])

/-- `parse_name_status`: `git diff-tree --name-status` lines with ≥ 2
tab-separated fields contribute an entry; the last field is the filename
(covers renames), the first is the status. -/
def parse_name_status (statusLines numstatLines : List String) : List FileEntry :=
  let add_del_map := (parse_numstat numstatLines).2.2
  statusLines.foldl (fun changed line =>
    let parts := pySplitCh line '\t'
    if parts.length ≥ 2 then
      let status := parts.headD ""
      let filename := parts.getLastD ""
      let ad := dictGetD add_del_map filename (0, 0)
      changed ++ [⟨filename, status, ad.1, ad.2, ad.1 + ad.2⟩]
    else changed) []

/-- `commit_header`: parse `%H|%an|%ae|%ad|%s` with `split("|", 4)`;
a malformed line yields four empty strings. -/
def commit_header (out : String) : String × String × String × String :=
  let parts := pySplitLimit (pyStrip out) '|' 4
  if parts.length ≠ 5 then ("", "", "", "")
  else (parts.getD 1 "", parts.getD 2 "", parts.getD 3 "", parts.getD 4 "")

/-- The single-commit fallback path of `main`: header, name-status entries,
numstat totals. -/
def fallback_record (header_out : String) (numstatLines statusLines : List String) :
    CommitData :=
  let h := commit_header header_out
  let changed := parse_name_status statusLines numstatLines
  let ns := parse_numstat numstatLines
  ⟨h.1, h.2.1, h.2.2.1, h.2.2.2, changed, ns.1, ns.2.1⟩

/-- Header-parsing loop of `get_all_commit_data`. -/
def headerStep (res : List (String × CommitData)) (line : String) :
    List (String × CommitData) :=
  if line.data.contains '|' = true ∧ 5 ≤ (pySplitCh line '|').length then
    let parts := pySplitLimit line '|' 4
    dictInsert res (parts.getD 0 "")
      ⟨parts.getD 1 "", parts.getD 2 "", parts.getD 3 "", parts.getD 4 "",
       [], 0, 0⟩
  else res

abbrev SN := List (String × List (String × (Nat × Nat)))

/-- Numstat-parsing loop of `get_all_commit_data`: a 40-hex line opens a new
section; a 3-field tab line updates the current section's per-file map and
the current commit's totals (when that commit has a header record). -/
def numstatStep (st : Option String × SN × List (String × CommitData))
    (line : String) : Option String × SN × List (String × CommitData) :=
  let line := pyStrip line
  if line = "" then st
  else if isShaLine line then (some line, dictInsert st.2.1 line [], st.2.2)
  else
    match st.1 with
    | some cur =>
      if line.data.contains '\t' = true then
        match pySplitCh line '\t' with
        | [adds, dels, fname] =>
          let a := pyCount adds
          let d := pyCount dels
          (some cur,
           dictModify st.2.1 cur (fun inner => dictInsert inner fname (a, d)),
           if dictMem st.2.2 cur then
             dictModify st.2.2 cur (fun r =>
               { r with total_adds := r.total_adds + a,
                        total_dels := r.total_dels + d })
           else st.2.2)
        | _ => st
      else st
    | none => st

/-- Name-status-parsing loop of `get_all_commit_data`: only lines with
EXACTLY two tab-separated fields contribute a `changed_files` entry. -/
def statusStep (st : Option String × SN × List (String × CommitData))
    (line : String) : Option String × SN × List (String × CommitData) :=
  let line := pyStrip line
  if line = "" then st
  else if isShaLine line then (some line, st.2.1, st.2.2)
  else
    match st.1 with
    | some cur =>
      if dictMem st.2.2 cur = true ∧ line.data.contains '\t' = true then
        match pySplitCh line '\t' with
        | [status, filename] =>
          let ad := dictGetD (dictGetD st.2.1 cur []) filename (0, 0)
          (some cur, st.2.1,
           dictModify st.2.2 cur (fun r =>
             { r with changed_files := r.changed_files ++
                 [⟨filename, status, ad.1, ad.2, ad.1 + ad.2⟩] }))
        | _ => st
      else st
    | none => st

/-- `get_all_commit_data`: three batched parses over the concatenated
multi-commit outputs. -/
def get_all_commit_data (commits header_out numstat_out status_out : List String) :
    List (String × CommitData) :=
  if commits.isEmpty then []
  else
    let result := header_out.foldl headerStep []
    let st1 := numstat_out.foldl numstatStep (none, [], result)
    let st2 := status_out.foldl statusStep (none, st1.2.1, st1.2.2)
    st2.2.2

/-- Underlying git data of one commit: its header fields and the lines of its
numstat and name-status sections (identical content feeds both paths). -/
structure RawCommit where
  sha : String
  an : String
  ae : String
  ad : String
  subj : String
  numstat : List String
  nstatus : List String

/-- The `%H|%an|%ae|%ad|%s` line git prints for the commit. -/
def headerLine (rc : RawCommit) : String :=
  rc.sha ++ "|" ++ rc.an ++ "|" ++ rc.ae ++ "|" ++ rc.ad ++ "|" ++ rc.subj

def batchHeaderOut (rcs : List RawCommit) : List String := rcs.map headerLine

def batchNumstatOut (rcs : List RawCommit) : List String :=
  rcs.foldr (fun rc acc => rc.sha :: (rc.numstat ++ acc)) []

def batchStatusOut (rcs : List RawCommit) : List String :=
  rcs.foldr (fun rc acc => rc.sha :: (rc.nstatus ++ acc)) []

/-- Well-formedness of one commit's raw git data: the sha is a 40-hex line,
the header line splits into its five fields, content lines are
whitespace-clean, not sha-like, and properly tab-separated (numstat: three
fields; name-status: exactly two fields — the amendment of claim C2). -/
structure RawOk (rc : RawCommit) : Prop where
  sha_ok : isShaLine rc.sha = true
  sha_strip : pyStrip rc.sha = rc.sha
  sha_ne : rc.sha ≠ ""
  header_pipe : (headerLine rc).data.contains '|' = true
  header_count : 5 ≤ (pySplitCh (headerLine rc) '|').length
  header_split : pySplitLimit (headerLine rc) '|' 4 =
    [rc.sha, rc.an, rc.ae, rc.ad, rc.subj]
  header_strip : pyStrip (headerLine rc) = headerLine rc
  numstat_ok : ∀ l ∈ rc.numstat, pyStrip l = l ∧ isShaLine l = false ∧
    l ≠ "" ∧ l.data.contains '\t' = true ∧ (pySplitCh l '\t').length = 3
  nstatus_ok : ∀ l ∈ rc.nstatus, pyStrip l = l ∧ isShaLine l = false ∧
    l ≠ "" ∧ l.data.contains '\t' = true ∧ (pySplitCh l '\t').length = 2

end Combined

example : Combined.pySplitCh "R100\told.txt\tnew.txt" '\t' =
  ["R100", "old.txt", "new.txt"] := by decide
example : Combined.pyCount "12" = 12 := by decide
example : Combined.pyCount "-" = 0 := by decide
example : Combined.isShaLine "aaaaaaaaaaaaaaaaaaaaaaaaaaaaaaaaaaaaaaaa" = true := by decide
example : Combined.isShaLine "R100\told.txt\tnew.txt" = false := by decide

/-- Claim C2, counterexample: for a commit whose name-status output contains
a rename line (three tab-separated fields), the batch path skips the line
(`len(parts) == 2` fails) while the single-commit fallback keeps it
(`len(parts) >= 2`, last field as filename), so the two records differ in
`changed_files`. -/
theorem c2_counterexample :
    Combined.dictGet?
        (Combined.get_all_commit_data ["aaaaaaaaaaaaaaaaaaaaaaaaaaaaaaaaaaaaaaaa"]
          ["aaaaaaaaaaaaaaaaaaaaaaaaaaaaaaaaaaaaaaaa|A|a@x|2024-01-01T00:00:00+00:00|r"]
          ["aaaaaaaaaaaaaaaaaaaaaaaaaaaaaaaaaaaaaaaa"]
          ["aaaaaaaaaaaaaaaaaaaaaaaaaaaaaaaaaaaaaaaa", "R100\told.txt\tnew.txt"])
        "aaaaaaaaaaaaaaaaaaaaaaaaaaaaaaaaaaaaaaaa" =
      some ⟨"A", "a@x", "2024-01-01T00:00:00+00:00", "r", [], 0, 0⟩ ∧
    Combined.fallback_record
        "aaaaaaaaaaaaaaaaaaaaaaaaaaaaaaaaaaaaaaaa|A|a@x|2024-01-01T00:00:00+00:00|r"
        [] ["R100\told.txt\tnew.txt"] =
      ⟨"A", "a@x", "2024-01-01T00:00:00+00:00", "r",
       [⟨"new.txt", "R100", 0, 0, 0⟩], 0, 0⟩ ∧
    Combined.dictGet?
        (Combined.get_all_commit_data ["aaaaaaaaaaaaaaaaaaaaaaaaaaaaaaaaaaaaaaaa"]
          ["aaaaaaaaaaaaaaaaaaaaaaaaaaaaaaaaaaaaaaaa|A|a@x|2024-01-01T00:00:00+00:00|r"]
          ["aaaaaaaaaaaaaaaaaaaaaaaaaaaaaaaaaaaaaaaa"]
          ["aaaaaaaaaaaaaaaaaaaaaaaaaaaaaaaaaaaaaaaa", "R100\told.txt\tnew.txt"])
        "aaaaaaaaaaaaaaaaaaaaaaaaaaaaaaaaaaaaaaaa" ≠
      some (Combined.fallback_record
        "aaaaaaaaaaaaaaaaaaaaaaaaaaaaaaaaaaaaaaaa|A|a@x|2024-01-01T00:00:00+00:00|r"
        [] ["R100\told.txt\tnew.txt"]) := by
  refine ⟨by decide, by decide, by decide⟩


namespace Combined

theorem dictGet?_insert_self : ∀ (l : List (String × α)) (k : String) (v : α),
    dictGet? (dictInsert l k v) k = some v
  | [], k, v => by simp [dictInsert, dictGet?]
  | p :: t, k, v => by
    by_cases hp : p.1 = k
    · simp [dictInsert, dictGet?, hp]
    · simp [dictInsert, dictGet?, hp, dictGet?_insert_self t k v]

theorem dictGet?_insert_ne {k k' : String} (hne : k' ≠ k) :
    ∀ (l : List (String × α)) (v : α), dictGet? (dictInsert l k v) k' = dictGet? l k'
  | [], v => by simp [dictInsert, dictGet?, Ne.symm hne]
  | p :: t, v => by
    by_cases hp : p.1 = k
    · subst hp
      simp [dictInsert, dictGet?, Ne.symm hne]
    · simp [dictInsert, dictGet?, hp, dictGet?_insert_ne hne t v]

theorem dictGet?_modify_self : ∀ (l : List (String × α)) (k : String) (f : α → α),
    dictGet? (dictModify l k f) k = (dictGet? l k).map f
  | [], k, f => by simp [dictModify, dictGet?]
  | p :: t, k, f => by
    by_cases hp : p.1 = k
    · simp [dictModify, dictGet?, hp]
    · simp [dictModify, dictGet?, hp, dictGet?_modify_self t k f]

theorem dictGet?_modify_ne {k k' : String} (hne : k' ≠ k) :
    ∀ (l : List (String × α)) (f : α → α),
      dictGet? (dictModify l k f) k' = dictGet? l k'
  | [], f => by simp [dictModify, dictGet?]
  | p :: t, f => by
    by_cases hp : p.1 = k
    · subst hp
      simp [dictModify, dictGet?, Ne.symm hne, dictGet?_modify_ne hne t f]
    · simp [dictModify, dictGet?, hp, dictGet?_modify_ne hne t f]

theorem dictGet?_updIf_ne {k k' : String} (hne : k' ≠ k)
    (l : List (String × α)) (f : α → α) :
    dictGet? (if dictMem l k then dictModify l k f else l) k' = dictGet? l k' := by
  by_cases hm : dictMem l k = true
  · rw [if_pos hm]
    exact dictGet?_modify_ne hne l f
  · rw [if_neg hm]

theorem dictGet?_updIf_self (l : List (String × α)) (k : String) (f : α → α) :
    dictGet? (if dictMem l k then dictModify l k f else l) k =
      (dictGet? l k).map f := by
  by_cases hm : dictMem l k = true
  · rw [if_pos hm]
    exact dictGet?_modify_self l k f
  · rw [if_neg hm]
    unfold dictMem at hm
    cases hg : dictGet? l k with
    | none => rfl
    | some v =>
      rw [hg] at hm
      exact absurd rfl hm

theorem dictMem_false_of_get_none {l : List (String × α)} {k : String}
    (h : dictGet? l k = none) : dictMem l k = false := by
  unfold dictMem
  rw [h]
  rfl

/-! ### Characterizations of the per-line parsing -/

/-- Parsed content of a numstat line (3 tab-separated fields). -/
def lineAD (l : String) : Option (Nat × Nat × String) :=
  match pySplitCh l '\t' with
  | [adds, dels, fname] => some (pyCount adds, pyCount dels, fname)
  | _ => none

theorem numstatLineStep_eq (acc : Nat × Nat × List (String × (Nat × Nat)))
    (l : String) :
    numstatLineStep acc l =
      match lineAD l with
      | some (a, d, f) => (acc.1 + a, acc.2.1 + d, dictInsert acc.2.2 f (a, d))
      | none => acc := by
  unfold numstatLineStep lineAD
  rcases hsp : pySplitCh l '\t' with _ | ⟨x1, _ | ⟨x2, _ | ⟨x3, _ | ⟨x4, t⟩⟩⟩⟩ <;> rfl

/-- Per-line contributions to the totals and per-file map. -/
def sumAdds : List String → Nat
  | [] => 0
  | l :: rest =>
    (match lineAD l with
      | some (a, _, _) => a
      | none => 0) + sumAdds rest

def sumDels : List String → Nat
  | [] => 0
  | l :: rest =>
    (match lineAD l with
      | some (_, d, _) => d
      | none => 0) + sumDels rest

def innerMapFold : List String → List (String × (Nat × Nat)) →
    List (String × (Nat × Nat))
  | [], m => m
  | l :: rest, m =>
    innerMapFold rest
      (match lineAD l with
        | some (a, d, f) => dictInsert m f (a, d)
        | none => m)

theorem numstat_fold_shift : ∀ (lines : List String) (ta td : Nat)
    (m : List (String × (Nat × Nat))),
    lines.foldl numstatLineStep (ta, td, m) =
      (ta + sumAdds lines, td + sumDels lines, innerMapFold lines m)
  | [], ta, td, m => by simp [sumAdds, sumDels, innerMapFold]
  | l :: rest, ta, td, m => by
    rw [List.foldl_cons, numstatLineStep_eq]
    cases hAD : lineAD l with
    | none =>
      rw [numstat_fold_shift rest ta td m]
      simp [sumAdds, sumDels, innerMapFold, hAD]
    | some adf =>
      obtain ⟨a, d, f⟩ := adf
      rw [numstat_fold_shift rest (ta + a) (td + d) (dictInsert m f (a, d))]
      simp only [sumAdds, sumDels, innerMapFold, hAD, Nat.add_assoc]

theorem parse_numstat_eq (lines : List String) :
    parse_numstat lines = (sumAdds lines, sumDels lines, innerMapFold lines []) := by
  unfold parse_numstat
  rw [numstat_fold_shift]
  simp

/-- Parsed content of a name-status line with exactly two fields, as a
`changed_files` entry given the per-file map. -/
def statusEntry (amap : List (String × (Nat × Nat))) (l : String) :
    Option FileEntry :=
  match pySplitCh l '\t' with
  | [status, filename] =>
    some ⟨filename, status, (dictGetD amap filename (0, 0)).1,
      (dictGetD amap filename (0, 0)).2,
      (dictGetD amap filename (0, 0)).1 + (dictGetD amap filename (0, 0)).2⟩
  | _ => none

def statusEntries (amap : List (String × (Nat × Nat))) : List String → List FileEntry
  | [] => []
  | l :: rest =>
    match statusEntry amap l with
    | some e => e :: statusEntries amap rest
    | none => statusEntries amap rest

/-- On lines with exactly two tab-separated fields, the fallback
`parse_name_status` yields exactly the `statusEntries`. -/
theorem parse_name_status_eq (statusLines numstatLines : List String)
    (h2 : ∀ l ∈ statusLines, (pySplitCh l '\t').length = 2) :
    parse_name_status statusLines numstatLines =
      statusEntries (innerMapFold numstatLines []) statusLines := by
  unfold parse_name_status
  rw [parse_numstat_eq]
  have hgen : ∀ (lines : List String), (∀ l ∈ lines, (pySplitCh l '\t').length = 2) →
      ∀ (acc : List FileEntry),
      lines.foldl (fun changed line =>
        let parts := pySplitCh line '\t'
        if parts.length ≥ 2 then
          let status := parts.headD ""
          let filename := parts.getLastD ""
          let ad := dictGetD (innerMapFold numstatLines []) filename (0, 0)
          changed ++ [⟨filename, status, ad.1, ad.2, ad.1 + ad.2⟩]
        else changed) acc =
      acc ++ statusEntries (innerMapFold numstatLines []) lines := by
    intro lines
    induction lines with
    | nil => intro _ acc; simp [statusEntries]
    | cons l rest ih =>
      intro hl acc
      obtain ⟨s0, f0, hsp⟩ := List.length_eq_two.mp (hl l (List.mem_cons_self _ _))
      rw [List.foldl_cons]
      simp only [hsp]
      rw [if_pos (by simp)]
      rw [ih (fun l' hl' => hl l' (List.mem_cons_of_mem _ hl')) _]
      have hse : statusEntry (innerMapFold numstatLines []) l =
          some ⟨f0, s0, (dictGetD (innerMapFold numstatLines []) f0 (0, 0)).1,
            (dictGetD (innerMapFold numstatLines []) f0 (0, 0)).2,
            (dictGetD (innerMapFold numstatLines []) f0 (0, 0)).1 +
              (dictGetD (innerMapFold numstatLines []) f0 (0, 0)).2⟩ := by
        unfold statusEntry
        rw [hsp]
      simp [statusEntries, hse]
  exact hgen statusLines h2 []

end Combined

namespace Combined

theorem numstatStep_content {l : String} (hstrip : pyStrip l = l)
    (hsha : isShaLine l = false) (hne : l ≠ "")
    (htab : l.data.contains '\t' = true)
    {x y z : String} (hsp : pySplitCh l '\t' = [x, y, z])
    (cur : String) (sn : SN) (res : List (String × CommitData)) :
    numstatStep (some cur, sn, res) l =
      (some cur,
       dictModify sn cur (fun inner => dictInsert inner z (pyCount x, pyCount y)),
       if dictMem res cur then
         dictModify res cur (fun r =>
           { r with total_adds := r.total_adds + pyCount x,
                    total_dels := r.total_dels + pyCount y })
       else res) := by
  simp [numstatStep, hstrip, hne, hsha, htab, hsp]
  exact fun h => absurd (by simpa using htab) h

theorem numstat_inner_proj :
    ∀ (lines : List String)
      (_ : ∀ l ∈ lines, pyStrip l = l ∧ isShaLine l = false ∧ l ≠ "" ∧
        l.data.contains '\t' = true ∧ (pySplitCh l '\t').length = 3)
      (cur : String) (sn : SN) (res : List (String × CommitData)),
      (lines.foldl numstatStep (some cur, sn, res)).1 = some cur ∧
      (∀ k, k ≠ cur →
        dictGet? (lines.foldl numstatStep (some cur, sn, res)).2.1 k =
          dictGet? sn k) ∧
      dictGet? (lines.foldl numstatStep (some cur, sn, res)).2.1 cur =
        (dictGet? sn cur).map (fun inner => innerMapFold lines inner) ∧
      (∀ k, k ≠ cur →
        dictGet? (lines.foldl numstatStep (some cur, sn, res)).2.2 k =
          dictGet? res k) ∧
      dictGet? (lines.foldl numstatStep (some cur, sn, res)).2.2 cur =
        (dictGet? res cur).map (fun r =>
          { r with total_adds := r.total_adds + sumAdds lines,
                   total_dels := r.total_dels + sumDels lines })
  | [], _, cur, sn, res => by
    refine ⟨rfl, fun k _ => rfl, ?_, fun k _ => rfl, ?_⟩
    · show dictGet? sn cur =
        (dictGet? sn cur).map (fun inner => innerMapFold [] inner)
      cases dictGet? sn cur <;> simp [innerMapFold]
    · show dictGet? res cur =
        (dictGet? res cur).map (fun r =>
          { r with total_adds := r.total_adds + sumAdds [],
                   total_dels := r.total_dels + sumDels [] })
      cases dictGet? res cur <;> simp [sumAdds, sumDels]
  | l :: rest, hok, cur, sn, res => by
    obtain ⟨hstrip, hsha, hne, htab, hlen⟩ := hok l (List.mem_cons_self _ _)
    obtain ⟨x, y, z, hsp⟩ := List.length_eq_three.mp hlen
    have hAD : lineAD l = some (pyCount x, pyCount y, z) := by
      unfold lineAD
      rw [hsp]
    rw [List.foldl_cons, numstatStep_content hstrip hsha hne htab hsp]
    obtain ⟨h1, h2, h3, h4, h5⟩ := numstat_inner_proj rest
      (fun l' hl' => hok l' (List.mem_cons_of_mem _ hl')) cur
      (dictModify sn cur (fun inner => dictInsert inner z (pyCount x, pyCount y)))
      (if dictMem res cur then
        dictModify res cur (fun r =>
          { r with total_adds := r.total_adds + pyCount x,
                   total_dels := r.total_dels + pyCount y })
      else res)
    refine ⟨h1, ?_, ?_, ?_, ?_⟩
    · intro k hk
      rw [h2 k hk, dictGet?_modify_ne hk]
    · rw [h3, dictGet?_modify_self, Option.map_map]
      congr 1
      funext inner
      simp [innerMapFold, hAD, Function.comp]
    · intro k hk
      rw [h4 k hk, dictGet?_updIf_ne hk]
    · rw [h5, dictGet?_updIf_self, Option.map_map]
      congr 1
      funext r
      simp [sumAdds, sumDels, hAD, Function.comp, Nat.add_assoc]

theorem statusStep_content {l : String} (hstrip : pyStrip l = l)
    (hsha : isShaLine l = false) (hne : l ≠ "")
    (htab : l.data.contains '\t' = true)
    {x y : String} (hsp : pySplitCh l '\t' = [x, y])
    (cur : String) (sn : SN) (res : List (String × CommitData)) :
    statusStep (some cur, sn, res) l =
      (some cur, sn,
       if dictMem res cur then
         dictModify res cur (fun r =>
           { r with changed_files := r.changed_files ++
               [⟨y, x, (dictGetD (dictGetD sn cur []) y (0, 0)).1,
                 (dictGetD (dictGetD sn cur []) y (0, 0)).2,
                 (dictGetD (dictGetD sn cur []) y (0, 0)).1 +
                   (dictGetD (dictGetD sn cur []) y (0, 0)).2⟩] })
       else res) := by
  by_cases hm : dictMem res cur = true
  · simp [statusStep, hstrip, hne, hsha, htab, hsp, hm]
    exact fun h => absurd (by simpa using htab) h
  · simp [statusStep, hstrip, hne, hsha, htab, hsp, hm]

theorem status_inner_proj :
    ∀ (lines : List String)
      (_ : ∀ l ∈ lines, pyStrip l = l ∧ isShaLine l = false ∧ l ≠ "" ∧
        l.data.contains '\t' = true ∧ (pySplitCh l '\t').length = 2)
      (cur : String) (sn : SN) (res : List (String × CommitData)),
      (lines.foldl statusStep (some cur, sn, res)).1 = some cur ∧
      (lines.foldl statusStep (some cur, sn, res)).2.1 = sn ∧
      (∀ k, k ≠ cur →
        dictGet? (lines.foldl statusStep (some cur, sn, res)).2.2 k =
          dictGet? res k) ∧
      dictGet? (lines.foldl statusStep (some cur, sn, res)).2.2 cur =
        (dictGet? res cur).map (fun r =>
          { r with changed_files := r.changed_files ++
              statusEntries (dictGetD sn cur []) lines })
  | [], _, cur, sn, res => by
    refine ⟨rfl, rfl, fun k _ => rfl, ?_⟩
    show dictGet? res cur =
      (dictGet? res cur).map (fun r =>
        { r with changed_files := r.changed_files ++
            statusEntries (dictGetD sn cur []) [] })
    cases dictGet? res cur <;> simp [statusEntries]
  | l :: rest, hok, cur, sn, res => by
    obtain ⟨hstrip, hsha, hne, htab, hlen⟩ := hok l (List.mem_cons_self _ _)
    obtain ⟨x, y, hsp⟩ := List.length_eq_two.mp hlen
    have hSE : statusEntry (dictGetD sn cur []) l =
        some ⟨y, x, (dictGetD (dictGetD sn cur []) y (0, 0)).1,
          (dictGetD (dictGetD sn cur []) y (0, 0)).2,
          (dictGetD (dictGetD sn cur []) y (0, 0)).1 +
            (dictGetD (dictGetD sn cur []) y (0, 0)).2⟩ := by
      unfold statusEntry
      rw [hsp]
    rw [List.foldl_cons, statusStep_content hstrip hsha hne htab hsp]
    obtain ⟨h1, h2, h3, h4⟩ := status_inner_proj rest
      (fun l' hl' => hok l' (List.mem_cons_of_mem _ hl')) cur sn
      (if dictMem res cur then
        dictModify res cur (fun r =>
          { r with changed_files := r.changed_files ++
              [⟨y, x, (dictGetD (dictGetD sn cur []) y (0, 0)).1,
                (dictGetD (dictGetD sn cur []) y (0, 0)).2,
                (dictGetD (dictGetD sn cur []) y (0, 0)).1 +
                  (dictGetD (dictGetD sn cur []) y (0, 0)).2⟩] })
      else res)
    refine ⟨h1, h2, ?_, ?_⟩
    · intro k hk
      rw [h3 k hk, dictGet?_updIf_ne hk]
    · rw [h4, dictGet?_updIf_self, Option.map_map]
      congr 1
      funext r
      simp [statusEntries, hSE, Function.comp]

end Combined

namespace Combined

/-- The record the batch header parser stores before numstat/status data
arrive: header fields, no files, zero totals. -/
def initRec (rc : RawCommit) : CommitData :=
  ⟨rc.an, rc.ae, rc.ad, rc.subj, [], 0, 0⟩

/-- Two sample commits with well-formed (two-field name-status) raw data. -/
def rcA : RawCommit :=
  ⟨"aaaaaaaaaaaaaaaaaaaaaaaaaaaaaaaaaaaaaaaa", "A", "a@x",
   "2024-01-01T00:00:00+00:00", "s1", ["1\t2\tf.txt"], ["M\tf.txt"]⟩

def rcB : RawCommit :=
  ⟨"bbbbbbbbbbbbbbbbbbbbbbbbbbbbbbbbbbbbbbbb", "B", "b@x",
   "2024-01-02T00:00:00+00:00", "s2", ["3\t0\tg.txt", "0\t1\tf.txt"],
   ["A\tg.txt", "M\tf.txt"]⟩

theorem headerStep_line (rc : RawCommit) (hok : RawOk rc)
    (res : List (String × CommitData)) :
    headerStep res (headerLine rc) = dictInsert res rc.sha (initRec rc) := by
  simp [headerStep, hok.header_pipe, hok.header_count, hok.header_split, initRec]
  exact fun h => absurd (by simpa using hok.header_pipe) h

theorem header_phase : ∀ (rcs : List RawCommit)
    (res : List (String × CommitData)),
    (∀ r ∈ rcs, RawOk r) →
    (∀ k, k ∉ rcs.map RawCommit.sha →
      dictGet? ((batchHeaderOut rcs).foldl headerStep res) k = dictGet? res k) ∧
    ((rcs.map RawCommit.sha).Nodup →
      ∀ rc ∈ rcs,
        dictGet? ((batchHeaderOut rcs).foldl headerStep res) rc.sha =
          some (initRec rc))
  | [], res, _ =>
    ⟨fun k _ => rfl, fun _ rc hrc => absurd hrc (List.not_mem_nil rc)⟩
  | rc :: rest, res, hok => by
    have hbatch : batchHeaderOut (rc :: rest) =
        headerLine rc :: batchHeaderOut rest := rfl
    rw [hbatch, List.foldl_cons,
      headerStep_line rc (hok rc (List.mem_cons_self _ _)) res]
    obtain ⟨ih1, ih2⟩ := header_phase rest (dictInsert res rc.sha (initRec rc))
      (fun r hr => hok r (List.mem_cons_of_mem _ hr))
    constructor
    · intro k hk
      simp only [List.map_cons, List.mem_cons, not_or] at hk
      obtain ⟨hk1, hk2⟩ := hk
      rw [ih1 k hk2, dictGet?_insert_ne hk1]
    · intro hnd rc' hrc'
      simp only [List.map_cons, List.nodup_cons] at hnd
      obtain ⟨hnotin, hnd'⟩ := hnd
      rcases List.mem_cons.mp hrc' with rfl | h
      · rw [ih1 _ hnotin, dictGet?_insert_self]
      · exact ih2 hnd' rc' h

theorem numstat_section (rc : RawCommit) (hok : RawOk rc)
    (st : Option String × SN × List (String × CommitData)) :
    ((rc.sha :: rc.numstat).foldl numstatStep st).1 = some rc.sha ∧
    (∀ k, k ≠ rc.sha →
      dictGet? ((rc.sha :: rc.numstat).foldl numstatStep st).2.1 k =
        dictGet? st.2.1 k) ∧
    dictGet? ((rc.sha :: rc.numstat).foldl numstatStep st).2.1 rc.sha =
      some (innerMapFold rc.numstat []) ∧
    (∀ k, k ≠ rc.sha →
      dictGet? ((rc.sha :: rc.numstat).foldl numstatStep st).2.2 k =
        dictGet? st.2.2 k) ∧
    dictGet? ((rc.sha :: rc.numstat).foldl numstatStep st).2.2 rc.sha =
      (dictGet? st.2.2 rc.sha).map (fun r =>
        { r with total_adds := r.total_adds + sumAdds rc.numstat,
                 total_dels := r.total_dels + sumDels rc.numstat }) := by
  have hstep : numstatStep st rc.sha =
      (some rc.sha, dictInsert st.2.1 rc.sha [], st.2.2) := by
    simp [numstatStep, hok.sha_strip, hok.sha_ne, hok.sha_ok]
  rw [List.foldl_cons, hstep]
  obtain ⟨h1, h2, h3, h4, h5⟩ := numstat_inner_proj rc.numstat hok.numstat_ok
    rc.sha (dictInsert st.2.1 rc.sha []) st.2.2
  refine ⟨h1, ?_, ?_, h4, h5⟩
  · intro k hk
    rw [h2 k hk, dictGet?_insert_ne hk]
  · rw [h3, dictGet?_insert_self]
    rfl

theorem numstat_phase : ∀ (rcs : List RawCommit)
    (st : Option String × SN × List (String × CommitData)),
    (∀ r ∈ rcs, RawOk r) → (rcs.map RawCommit.sha).Nodup →
    (∀ k, k ∉ rcs.map RawCommit.sha →
      dictGet? ((batchNumstatOut rcs).foldl numstatStep st).2.1 k =
        dictGet? st.2.1 k ∧
      dictGet? ((batchNumstatOut rcs).foldl numstatStep st).2.2 k =
        dictGet? st.2.2 k) ∧
    (∀ rc ∈ rcs,
      dictGet? ((batchNumstatOut rcs).foldl numstatStep st).2.1 rc.sha =
        some (innerMapFold rc.numstat []) ∧
      dictGet? ((batchNumstatOut rcs).foldl numstatStep st).2.2 rc.sha =
        (dictGet? st.2.2 rc.sha).map (fun r =>
          { r with total_adds := r.total_adds + sumAdds rc.numstat,
                   total_dels := r.total_dels + sumDels rc.numstat }))
  | [], st, _, _ =>
    ⟨fun k _ => ⟨rfl, rfl⟩, fun rc hrc => absurd hrc (List.not_mem_nil rc)⟩
  | rc :: rest, st, hok, hnd => by
    have hbatch : batchNumstatOut (rc :: rest) =
        (rc.sha :: rc.numstat) ++ batchNumstatOut rest := by
      simp [batchNumstatOut]
    rw [hbatch, List.foldl_append]
    obtain ⟨s1, s2, s3, s4, s5⟩ :=
      numstat_section rc (hok rc (List.mem_cons_self _ _)) st
    simp only [List.map_cons, List.nodup_cons] at hnd
    obtain ⟨hnotin, hnd'⟩ := hnd
    obtain ⟨ih1, ih2⟩ := numstat_phase rest
      ((rc.sha :: rc.numstat).foldl numstatStep st)
      (fun r hr => hok r (List.mem_cons_of_mem _ hr)) hnd'
    constructor
    · intro k hk
      simp only [List.map_cons, List.mem_cons, not_or] at hk
      obtain ⟨hk1, hk2⟩ := hk
      obtain ⟨e1, e2⟩ := ih1 k hk2
      exact ⟨by rw [e1, s2 k hk1], by rw [e2, s4 k hk1]⟩
    · intro rc' hrc'
      rcases List.mem_cons.mp hrc' with rfl | h
      · obtain ⟨e1, e2⟩ := ih1 rc'.sha hnotin
        exact ⟨by rw [e1, s3], by rw [e2, s5]⟩
      · obtain ⟨f1, f2⟩ := ih2 rc' h
        have hne : rc'.sha ≠ rc.sha := by
          intro he
          exact hnotin (he ▸ List.mem_map_of_mem RawCommit.sha h)
        exact ⟨f1, by rw [f2, s4 rc'.sha hne]⟩

theorem status_section (rc : RawCommit) (hok : RawOk rc)
    (st : Option String × SN × List (String × CommitData)) :
    ((rc.sha :: rc.nstatus).foldl statusStep st).1 = some rc.sha ∧
    ((rc.sha :: rc.nstatus).foldl statusStep st).2.1 = st.2.1 ∧
    (∀ k, k ≠ rc.sha →
      dictGet? ((rc.sha :: rc.nstatus).foldl statusStep st).2.2 k =
        dictGet? st.2.2 k) ∧
    dictGet? ((rc.sha :: rc.nstatus).foldl statusStep st).2.2 rc.sha =
      (dictGet? st.2.2 rc.sha).map (fun r =>
        { r with changed_files := r.changed_files ++
            statusEntries (dictGetD st.2.1 rc.sha []) rc.nstatus }) := by
  have hstep : statusStep st rc.sha = (some rc.sha, st.2.1, st.2.2) := by
    simp [statusStep, hok.sha_strip, hok.sha_ne, hok.sha_ok]
  rw [List.foldl_cons, hstep]
  exact status_inner_proj rc.nstatus hok.nstatus_ok rc.sha st.2.1 st.2.2

theorem status_phase : ∀ (rcs : List RawCommit)
    (st : Option String × SN × List (String × CommitData)),
    (∀ r ∈ rcs, RawOk r) → (rcs.map RawCommit.sha).Nodup →
    ((batchStatusOut rcs).foldl statusStep st).2.1 = st.2.1 ∧
    (∀ k, k ∉ rcs.map RawCommit.sha →
      dictGet? ((batchStatusOut rcs).foldl statusStep st).2.2 k =
        dictGet? st.2.2 k) ∧
    (∀ rc ∈ rcs,
      dictGet? ((batchStatusOut rcs).foldl statusStep st).2.2 rc.sha =
        (dictGet? st.2.2 rc.sha).map (fun r =>
          { r with changed_files := r.changed_files ++
              statusEntries (dictGetD st.2.1 rc.sha []) rc.nstatus }))
  | [], st, _, _ =>
    ⟨rfl, fun k _ => rfl, fun rc hrc => absurd hrc (List.not_mem_nil rc)⟩
  | rc :: rest, st, hok, hnd => by
    have hbatch : batchStatusOut (rc :: rest) =
        (rc.sha :: rc.nstatus) ++ batchStatusOut rest := by
      simp [batchStatusOut]
    rw [hbatch, List.foldl_append]
    obtain ⟨s1, s2, s3, s4⟩ :=
      status_section rc (hok rc (List.mem_cons_self _ _)) st
    simp only [List.map_cons, List.nodup_cons] at hnd
    obtain ⟨hnotin, hnd'⟩ := hnd
    obtain ⟨ih0, ih1, ih2⟩ := status_phase rest
      ((rc.sha :: rc.nstatus).foldl statusStep st)
      (fun r hr => hok r (List.mem_cons_of_mem _ hr)) hnd'
    refine ⟨by rw [ih0, s2], ?_, ?_⟩
    · intro k hk
      simp only [List.map_cons, List.mem_cons, not_or] at hk
      obtain ⟨hk1, hk2⟩ := hk
      rw [ih1 k hk2, s3 k hk1]
    · intro rc' hrc'
      rcases List.mem_cons.mp hrc' with rfl | h
      · rw [ih1 _ hnotin, s4]
      · have hne : rc'.sha ≠ rc.sha := by
          intro he
          exact hnotin (he ▸ List.mem_map_of_mem RawCommit.sha h)
        rw [ih2 rc' h, s3 rc'.sha hne, s2]

end Combined

/-- Claim C2, amended: for a batch of commits with well-formed git output
whose name-status lines all have exactly two tab-separated fields, the
record `get_all_commit_data` stores for each commit equals, field for field,
the record the single-commit fallback path builds from the same raw data.
(Name-status lines with three or more fields — renames/copies — are the
exception, established by the counterexample: the fallback keeps them with
the last field as filename, the batch parser drops them.) -/
theorem c2_amended (rcs : List Combined.RawCommit) (rc : Combined.RawCommit)
    (hmem : rc ∈ rcs) (hok : ∀ r ∈ rcs, Combined.RawOk r)
    (hnd : (rcs.map Combined.RawCommit.sha).Nodup) :
    Combined.dictGet?
        (Combined.get_all_commit_data (rcs.map Combined.RawCommit.sha)
          (Combined.batchHeaderOut rcs) (Combined.batchNumstatOut rcs)
          (Combined.batchStatusOut rcs)) rc.sha =
      some (Combined.fallback_record (Combined.headerLine rc)
        rc.numstat rc.nstatus) := by
  have hok_rc := hok rc hmem
  have hempty : (rcs.map Combined.RawCommit.sha).isEmpty = false := by
    cases rcs with
    | nil => exact absurd hmem (List.not_mem_nil rc)
    | cons a t => rfl
  obtain ⟨hH1, hH2⟩ := Combined.header_phase rcs [] hok
  have hHrc := hH2 hnd rc hmem
  obtain ⟨hN1, hN2⟩ := Combined.numstat_phase rcs
    (none, [], (Combined.batchHeaderOut rcs).foldl Combined.headerStep [])
    hok hnd
  obtain ⟨hNsn, hNres⟩ := hN2 rc hmem
  dsimp only at hNsn hNres
  rw [hHrc] at hNres
  obtain ⟨hS0, hS1, hS2⟩ := Combined.status_phase rcs
    (none,
     ((Combined.batchNumstatOut rcs).foldl Combined.numstatStep
       (none, [],
        (Combined.batchHeaderOut rcs).foldl Combined.headerStep [])).2.1,
     ((Combined.batchNumstatOut rcs).foldl Combined.numstatStep
       (none, [],
        (Combined.batchHeaderOut rcs).foldl Combined.headerStep [])).2.2)
    hok hnd
  have hfin := hS2 rc hmem
  dsimp only at hfin
  rw [hNres] at hfin
  have hgetd : Combined.dictGetD
      (((Combined.batchNumstatOut rcs).foldl Combined.numstatStep
        (none, [],
         (Combined.batchHeaderOut rcs).foldl Combined.headerStep [])).2.1)
      rc.sha [] = Combined.innerMapFold rc.numstat [] := by
    simp [Combined.dictGetD, hNsn]
  rw [hgetd] at hfin
  have hch : Combined.commit_header (Combined.headerLine rc) =
      (rc.an, rc.ae, rc.ad, rc.subj) := by
    simp [Combined.commit_header, hok_rc.header_strip, hok_rc.header_split]
  have hsplits : ∀ l ∈ rc.nstatus, (Combined.pySplitCh l '\t').length = 2 :=
    fun l hl => (hok_rc.nstatus_ok l hl).2.2.2.2
  simp only [Combined.get_all_commit_data, hempty, Bool.false_eq_true,
    if_false]
  rw [hfin]
  simp [Combined.fallback_record, hch,
    Combined.parse_name_status_eq rc.nstatus rc.numstat hsplits,
    Combined.parse_numstat_eq, Combined.initRec]

/-- Witness for the amended claim C2 at a concrete two-commit batch. -/
theorem c2_amended_witness :
    Combined.dictGet?
        (Combined.get_all_commit_data
          ([Combined.rcA, Combined.rcB].map Combined.RawCommit.sha)
          (Combined.batchHeaderOut [Combined.rcA, Combined.rcB])
          (Combined.batchNumstatOut [Combined.rcA, Combined.rcB])
          (Combined.batchStatusOut [Combined.rcA, Combined.rcB]))
        Combined.rcA.sha =
      some (Combined.fallback_record (Combined.headerLine Combined.rcA)
        Combined.rcA.numstat Combined.rcA.nstatus) :=
  c2_amended [Combined.rcA, Combined.rcB] Combined.rcA
    (List.mem_cons_self _ _)
    (by
      intro r hr
      rcases List.mem_cons.mp hr with rfl | hr
      · exact ⟨by decide, by decide, by decide, by decide, by decide,
          by decide, by decide, by decide, by decide⟩
      rcases List.mem_cons.mp hr with rfl | hr
      · exact ⟨by decide, by decide, by decide, by decide, by decide,
          by decide, by decide, by decide, by decide⟩
      · exact absurd hr (List.not_mem_nil r))
    (by decide)

end FutureOfIT
